import Mathlib

/-!
Verification of the qordoba-cli file-path pattern engine
(`qordoba/sources.py`) against its specification.

Strings are modelled as `List Char`.  Pure Python string operations
(`str.replace`, `str.split`, `os.path.splitext`, `os.path.basename`,
`os.path.relpath` on relative inputs) are embedded as executable Lean
functions.  The compiled push-pattern regex built by
`validate_push_pattern` is embedded at the token level: after
`re.escape`, the pattern text is an alternation-free concatenation of
escaped literal characters and the two named capturing groups
`(?P<language_code>[\w]{2}\-[\w]{2})` (exactly five characters of fixed
shape) and `(?P<language_lang_code>[\w]*)`.  A token list with at most
one variable-width group, matched anchored at both ends, has at most one
successful decomposition of any candidate string, so the backtracking
regex semantics coincide with the deterministic matcher `matchToks`
defined below.

`qordoba/languages.py` is not part of the sources; `Language`,
`Language.lang` and `normalize_language` are modelled from the spec
(sections 3 and 6) and are marked as such.
-/

namespace Qordoba

/-- Strings of the embedded program, as lists of characters. -/
abbrev Str := List Char

/-- Word characters, the `[\w]` class of the compiled patterns
(letters, digits and underscore). -/
def isWordChar (c : Char) : Bool := c.isAlphanum || c == '_'

/-- Substring test: models `re.search` of an escaped literal pattern,
i.e. Python `pat in s`. -/
def containsSub : Str → Str → Bool
  | [], pat => pat.isEmpty
  | c :: s, pat => pat.isPrefixOf (c :: s) || containsSub s pat

/-- Fuel-indexed worker for `replaceAll`; the fuel is always at least the
length of the string being scanned, so the `0` case is never reached by
`replaceAll`. -/
def repGo (pat rep : Str) : Nat → Str → Str
  | _, [] => []
  | 0, s => s
  | fuel + 1, c :: s =>
    if pat.isPrefixOf (c :: s) then rep ++ repGo pat rep fuel ((c :: s).drop pat.length)
    else c :: repGo pat rep fuel s

/-- Models Python `s.replace(pat, rep)`: replaces every non-overlapping
occurrence of `pat` left to right, without rescanning replacements. -/
def replaceAll (s pat rep : Str) : Str := repGo pat rep s.length s

/-- Tokens of the compiled push-pattern regex: an escaped literal
character, the `language_code` capturing group, or the
`language_lang_code` capturing group. -/
inductive Tok where
  | chr (c : Char)
  | codeG
  | langG
deriving DecidableEq, Repr

/-- A plain string viewed as a token list of literal characters. -/
def embed (s : Str) : List Tok := s.map Tok.chr

/-- Fuel-indexed worker for `replTok`, mirroring `repGo` on token
lists. -/
def repTokGo (pat : Str) (rep : List Tok) : Nat → List Tok → List Tok
  | _, [] => []
  | 0, s => s
  | fuel + 1, t :: s =>
    if (embed pat).isPrefixOf (t :: s) then rep ++ repTokGo pat rep fuel ((t :: s).drop pat.length)
    else t :: repTokGo pat rep fuel s

/-- Replacement of a literal pattern inside the token-level regex text;
this is `str.replace` applied to the escaped pattern during
`validate_push_pattern`. -/
def replTok (s : List Tok) (pat : Str) (rep : List Tok) : List Tok := repTokGo pat rep s.length s

/-- The placeholder written as the literal text of the source:
`<language_code>`. -/
def lcPat : Str := "<language_code>".toList

/-- The placeholder `<language_lang_code>`. -/
def llcPat : Str := "<language_lang_code>".toList

/-- The placeholder `<language_name>`. -/
def lnPat : Str := "<language_name>".toList

/-- The placeholder `<language_name_cap>`. -/
def lncPat : Str := "<language_name_cap>".toList

/-- The placeholder `<language_name_allcap>`. -/
def lnaPat : Str := "<language_name_allcap>".toList

/-- The placeholder `<extension>`. -/
def extPat : Str := "<extension>".toList

/-- Modelled from the spec (section 3): `qordoba/languages.py` is not
under the sources.  A `Language` is an immutable value with an integer
id, a BCP-47-like `code` such as `fr-fr`, a display `name` and a
text direction. -/
structure Language where
  id : Int
  code : Str
  name : Str
  direction : Str
deriving DecidableEq, Repr

/-- Modelled from the spec (section 3): the short `lang` code is derived
from `code` by taking everything before the first dash
(for example `fr` from `fr-fr`). -/
def Language.lang (l : Language) : Str := l.code.takeWhile (fun c => c != '-')

/-- Shape of a locale code as matched by the `language_code` capturing
group `[\w]{2}\-[\w]{2}`: exactly two word characters, a dash, and two
word characters. -/
def isLocaleCode (s : Str) : Bool :=
  match s with
  | [a, b, c, d, e] =>
    isWordChar a && isWordChar b && (c == '-') && isWordChar d && isWordChar e
  | _ => false

/-- Python `str.capitalize`: first character upper-cased, the rest
lower-cased. -/
def pyCapitalize (s : Str) : Str :=
  match s with
  | [] => []
  | c :: r => c.toUpper :: r.map Char.toLower

/-- Python `str.upper`. -/
def pyUpper (s : Str) : Str := s.map Char.toUpper

/-- models `os.path.basename` for posix paths: everything after the last
separator. -/
def afterLastSep (p : Str) : Str := (p.reverse.takeWhile (fun c => c != '/')).reverse

/-- Extension part of `os.path.splitext` restricted to a basename: the
suffix starting at the last dot, including that dot, unless every dot of
the basename is leading, in which case it is empty. -/
def extOfBase (base : Str) : Str :=
  let rest := base.dropWhile (fun c => c == '.')
  let revTail := rest.reverse.takeWhile (fun c => c != '.')
  if revTail.length = rest.length then [] else '.' :: revTail.reverse

/-- Second component of `os.path.splitext(source_name)` as used at
sources.py lines 170-173.  The surrounding `try` of the source catches
the error raised when `source_name` is `None` (the Python 2
`AttributeError`) and uses the empty extension instead, which is the
documented intent; this is modelled by the `none` case. -/
def splitextExt : Option Str → Str
  | none => []
  | some s => extOfBase (afterLastSep s)

/-- Path components worker: splits on the separator, keeping empty
components. -/
def compsGo (cur : Str) : Str → List Str
  | [] => [cur.reverse]
  | c :: rest => if c = '/' then cur.reverse :: compsGo [] rest else compsGo (c :: cur) rest

/-- Non-empty path components of a relative posix path, as produced by
`p.split(sep)` followed by the filtering done inside
`os.path.relpath`. -/
def comps (p : Str) : List Str := (compsGo [] p).filter (fun c => !c.isEmpty)

/-- One step of `os.path.normpath` component normalisation, with the
accumulator kept in reverse order.  A `.` component is dropped, a `..`
pops the previous component unless there is none or it is itself `..`,
anything else is pushed. -/
def normRelStep (acc : List Str) (c : Str) : List Str :=
  if c = ['.'] then acc
  else if c = ['.', '.'] then
    match acc with
    | [] => [['.', '.']]
    | last :: rest => if last = ['.', '.'] then c :: acc else rest
  else c :: acc

/-- Component normalisation of a relative path, as performed by the
`abspath` calls inside `os.path.relpath` (the current-directory prefix
shared by both arguments cancels in the common-prefix step). -/
def normRel (cs : List Str) : List Str := (cs.foldl normRelStep []).reverse

/-- Length of the longest common prefix of two component lists. -/
def commonLen : List Str → List Str → Nat
  | a :: as, b :: bs => if a = b then commonLen as bs + 1 else 0
  | _, _ => 0

/-- Joins components with the posix separator. -/
def joinComps (cs : List Str) : Str := List.intercalate ['/'] cs

/-- Models `os.path.relpath(p, start)` for the regime the repository
exercises: both arguments relative paths interpreted against the same
current directory, whose components cancel; the result climbs out of the
remaining `start` components and descends into the remaining `p`
components.  The claims below only ever instantiate `start` with the
empty string. -/
def os_relpath (p start : Str) : Str :=
  let pl := normRel (comps p)
  let sl := normRel (comps start)
  let k := commonLen pl sl
  let rel := List.replicate (sl.length - k) ['.', '.'] ++ pl.drop k
  if rel.isEmpty then ['.'] else joinComps rel

/-- Errors raised while normalising a language token; modelled from the
spec (section 7). -/
inductive LangErr where
  | languageNotFound
deriving DecidableEq, Repr

/-- Modelled from the spec (sections 3 and 6): `normalize_language` of
`qordoba/languages.py` is not under the sources.  The registry maps each
of a language's identifying facets (code, short lang code, display name)
to the `Language`; an already-normalised `Language` value is returned
unchanged (normalisation is idempotent), and an unknown raw token fails
with `LanguageNotFound`. -/
def normalize_language (reg : List Language) : Sum Str Language → Except LangErr Language
  | Sum.inr l => Except.ok l
  | Sum.inl raw =>
    match reg.find? (fun l => l.code == raw || l.lang == raw || l.name == raw) with
    | some l => Except.ok l
    | none => Except.error LangErr.languageNotFound

/-- Models `TranslationFile` (sources.py lines 54-100): a project-relative
path together with its language and the scan root. -/
structure TranslationFile where
  relpath : Str
  lang : Language
  curdir : Str
deriving DecidableEq, Repr

/-- Models `self.name = os.path.basename(path)` set in the constructor. -/
def TranslationFile.name (f : TranslationFile) : Str := afterLastSep f.relpath

/-- Models the `extension` property (sources.py lines 62-68):
`name.split(sep, 1)` keeps everything after the first dot; a name with
no dot raises `ValueError`, caught and turned into `None`. -/
def TranslationFile.extension (f : TranslationFile) : Option Str :=
  let pre := f.name.takeWhile (fun c => c != '.')
  if pre.length = f.name.length then none else some (f.name.drop (pre.length + 1))

/-- Models `validate_path` (sources.py lines 103-119): normalise the
language, make the path relative to `curdir`, wrap in a
`TranslationFile`. -/
def validate_path (curdir : Str) (path : Str) (lang : Sum Str Language) (reg : List Language) :
    Except LangErr TranslationFile :=
  match normalize_language reg lang with
  | Except.error e => Except.error e
  | Except.ok l => Except.ok ⟨os_relpath path curdir, l, curdir⟩

/-- Errors of pattern compilation.  `patternNotValid` models the
`PatternNotValid` exception; `groupRedefinition` models the error raised
by `re.compile` at sources.py line 149 when a named capturing group is
defined more than once, which happens exactly when a placeholder occurs
more than once in the pattern. -/
inductive PatternErr where
  | patternNotValid
  | groupRedefinition
deriving DecidableEq, Repr

/-- Token-level text of the regex built by `validate_push_pattern`
before compilation: escape the pattern (escaping is injective and is
inverted by the token embedding, so it is represented by `embed`), then
replace the escaped `<language_code>` by its capturing group and the
escaped `<language_lang_code>` by its capturing group, in that order.
Each group token stands for one `(?P<name>...)` fragment of the regex
text, so the number of group tokens equals the number of named groups
seen by `re.compile`. -/
def compiledToks (p : Str) : List Tok :=
  replTok (replTok (embed p) lcPat [Tok.codeG]) llcPat [Tok.langG]

/-- Models `validate_push_pattern` (sources.py lines 136-150): raise
`PatternNotValid` when neither `<language_code>` nor
`<language_lang_code>` occurs; otherwise build the anchored,
case-insensitive matcher, which `re.compile` rejects when a named group
is defined twice. -/
def validate_push_pattern (p : Str) : Except PatternErr (List Tok) :=
  if !(containsSub p lcPat || containsSub p llcPat) then
    Except.error PatternErr.patternNotValid
  else if 2 ≤ (compiledToks p).count Tok.codeG ∨ 2 ≤ (compiledToks p).count Tok.langG then
    Except.error PatternErr.groupRedefinition
  else
    Except.ok (compiledToks p)

/-- Captured groups of a successful match of the compiled push matcher:
the values of the `language_code` and `language_lang_code` groups. -/
structure Caps where
  code : Option Str
  lang : Option Str
deriving DecidableEq, Repr

/-- Total width of a token list containing no variable-width group:
literal characters are one character wide and the `language_code` group
is exactly five characters wide. -/
def fixedLen : List Tok → Option Nat
  | [] => some 0
  | Tok.chr _ :: ts => (fixedLen ts).map (· + 1)
  | Tok.codeG :: ts => (fixedLen ts).map (· + 5)
  | Tok.langG :: _ => none

/-- Anchored, case-insensitive matching of the compiled push matcher
against a candidate relative path.  Literal characters match up to ASCII
case folding (`re.IGNORECASE`); the `language_code` group consumes
exactly five characters of shape `ww-ww`; the `language_lang_code`
group, `[\w]*`, consumes exactly the number of characters left over by
the fixed-width remainder of the pattern, which is the unique length any
anchored match can give it. -/
def matchToks : List Tok → Str → Option Caps
  | [], [] => some ⟨none, none⟩
  | [], _ :: _ => none
  | Tok.chr _ :: _, [] => none
  | Tok.chr c :: ts, x :: xs => if c.toLower = x.toLower then matchToks ts xs else none
  | Tok.codeG :: ts, a :: b :: c :: d :: e :: rest =>
    if isWordChar a && isWordChar b && (c == '-') && isWordChar d && isWordChar e then
      (matchToks ts rest).map (fun cp => ⟨some [a, b, c, d, e], cp.lang⟩)
    else none
  | Tok.codeG :: _, _ => none
  | Tok.langG :: ts, path =>
    match fixedLen ts with
    | none => none
    | some n =>
      if n ≤ path.length then
        if (path.take (path.length - n)).all isWordChar then
          (matchToks ts (path.drop (path.length - n))).map
            (fun cp => ⟨cp.code, some (path.take (path.length - n))⟩)
        else none
      else none

/-- Value of a token under generation: a literal renders to itself and
the two groups render to the corresponding facets of the language. -/
def renderTok (code lang : Str) : Tok → Str
  | Tok.chr c => [c]
  | Tok.codeG => code
  | Tok.langG => lang

/-- Generation-side rendering of a compiled pattern at a concrete
language. -/
def render (ts : List Tok) (code lang : Str) : Str := ts.flatMap (renderTok code lang)

/-- Models the pull-pattern validity test (sources.py line 154, regex of
line 133): the pattern contains at least one of the five language
placeholders. -/
def pullOk (p : Str) : Bool :=
  containsSub p lcPat || containsSub p lnPat || containsSub p lncPat ||
    containsSub p lnaPat || containsSub p llcPat

/-- Models `DEFAULT_PATTERN` (sources.py line 13). -/
def DEFAULT_PATTERN : Str := "<language_code><extension>".toList

/-- Substitution of the five language placeholders into a pattern, in
source order (sources.py lines 161-167). -/
def substituted (p : Str) (l : Language) : Str :=
  replaceAll
    (replaceAll
      (replaceAll
        (replaceAll (replaceAll p lcPat l.code) llcPat l.lang)
        lnPat l.name)
      lncPat (pyCapitalize l.name))
    lnaPat (pyUpper l.name)

/-- The generated target path string (sources.py lines 161-175): after
placeholder substitution, when the path still ends with the literal
`<extension>` every occurrence of `<extension>` is replaced by the
`os.path.splitext` extension of the source name; otherwise the path is
kept as produced. -/
def targetString (p : Str) (l : Language) (src : Option Str) : Str :=
  let t := substituted p l
  if extPat.isSuffixOf t then replaceAll t extPat (splitextExt src) else t

/-- Errors of `create_target_path_by_pattern`. -/
inductive TargetErr where
  | patternNotValid
  | languageNotFound
deriving DecidableEq, Repr

/-- Models `create_target_path_by_pattern` (sources.py lines 153-177):
an explicit pattern lacking all five placeholders is rejected; an absent
pattern (and, dead code, an empty one) falls back to `DEFAULT_PATTERN`;
the substituted path is wrapped via `validate_path`. -/
def create_target_path_by_pattern (curdir : Str) (language : Language) (pattern : Option Str)
    (source_name : Option Str) (reg : List Language) : Except TargetErr TranslationFile :=
  match pattern with
  | some p =>
    if pullOk p then
      match validate_path curdir
          (targetString (if p.isEmpty then DEFAULT_PATTERN else p) language source_name)
          (Sum.inr language) reg with
      | Except.ok tf => Except.ok tf
      | Except.error _ => Except.error TargetErr.languageNotFound
    else Except.error TargetErr.patternNotValid
  | none =>
    match validate_path curdir (targetString DEFAULT_PATTERN language source_name)
        (Sum.inr language) reg with
    | Except.ok tf => Except.ok tf
    | Except.error _ => Except.error TargetErr.languageNotFound

/-- Language resolution of a match during discovery (sources.py lines
223-231): try the captured groups in the fixed placeholder order
(`language_code` before `language_lang_code`), keeping the first token
that normalises; if every attempt fails the language stays the initial
empty string. -/
def tryNormalizeCaps (reg : List Language) (caps : Caps) : Sum Str Language :=
  match caps.code with
  | some v =>
    match normalize_language reg (Sum.inl v) with
    | Except.ok l => Sum.inr l
    | Except.error _ =>
      match caps.lang with
      | some w =>
        match normalize_language reg (Sum.inl w) with
        | Except.ok l => Sum.inr l
        | Except.error _ => Sum.inl []
      | none => Sum.inl []
  | none =>
    match caps.lang with
    | some w =>
      match normalize_language reg (Sum.inl w) with
      | Except.ok l => Sum.inr l
      | Except.error _ => Sum.inl []
    | none => Sum.inl []

/-- Models `find_files_by_pattern` (sources.py lines 213-238) applied to
the list of relative paths produced by the directory walk: paths that do
not match are dropped; a matching path whose language resolves is
yielded as a `TranslationFile`; a matching path whose language fails to
resolve is logged and still yielded, as the raw path string (the
`yield path` of line 238 sits outside the `try` of lines 233-236). -/
def find_files_by_pattern (curpath : Str) (toks : List Tok) (reg : List Language)
    (paths : List Str) : List (Sum Str TranslationFile) :=
  paths.filterMap (fun path =>
    match matchToks toks path with
    | none => none
    | some caps =>
      match validate_path curpath path (tryNormalizeCaps reg caps) reg with
      | Except.ok tf => some (Sum.inr tf)
      | Except.error _ => some (Sum.inl path))

/-- Models `CONTENT_TYPE_CODES` (sources.py lines 15-28): the ordered
table from content-type code to its recognised extensions. -/
def CONTENT_TYPE_CODES : List (String × List String) :=
  [("excel", ["xlsx"]),
   ("xliff", ["xliff", "xlf"]),
   ("XLIFF1.2", ["xliff", "xlf"]),
   ("xmlAndroid", ["xml"]),
   ("macStrings", ["strings"]),
   ("PO", ["po"]),
   ("propertiesJava", ["properties"]),
   ("YAML", ["yml", "yaml"]),
   ("YAMLi18n", ["yml", "yaml"]),
   ("csv", ["csv"]),
   ("JSON", ["json"]),
   ("SRT", ["srt"]),
   ("md", ["md", "text"])]

/-- The extension-to-code bindings in declaration order, as enumerated by
the dict comprehension building `ALLOWED_EXTENSIONS` (sources.py lines
30-32). -/
def allowedPairs : List (Str × String) :=
  CONTENT_TYPE_CODES.flatMap (fun kv => kv.2.map (fun e => (e.toList, kv.1)))

/-- Lookup in `ALLOWED_EXTENSIONS`: a later binding of the same extension
overwrites an earlier one, exactly as repeated dictionary assignment
does. -/
def lookupAllowed (ext : Str) : Option String :=
  allowedPairs.foldl (fun acc kv => if kv.1 = ext then some kv.2 else acc) none

/-- Error of `get_content_type_code`. -/
inductive ContentErr where
  | fileExtensionNotAllowed
deriving DecidableEq, Repr

/-- Models `get_content_type_code` (sources.py lines 241-251): look the
file extension up in `ALLOWED_EXTENSIONS`; a `None` extension is never a
key of the string-keyed dictionary, so it fails like any unknown
extension. -/
def get_content_type_code (f : TranslationFile) : Except ContentErr String :=
  match f.extension with
  | none => Except.error ContentErr.fileExtensionNotAllowed
  | some e =>
    match lookupAllowed e with
    | none => Except.error ContentErr.fileExtensionNotAllowed
    | some c => Except.ok c

/-- A filesystem as seen through `os.path.realpath`: real directories are
identified by numbers below `nDirs`; `entries d` lists the real
directories reached by resolving the subdirectory entries of `d` (a
symlink to an ancestor simply makes `entries` cyclic), and `files d`
lists the names of the regular files of `d`.  A real file is identified
by the pair of its real directory and its name. -/
structure FS where
  nDirs : Nat
  entries : Nat → List Nat
  files : Nat → List String

/-- Every resolved subdirectory entry is a real directory of the
filesystem. -/
def FS.Good (fs : FS) : Prop := ∀ d c, c ∈ fs.entries d → c < fs.nDirs

mutual

/-- Models one `os.walk` visit of `files_in_project` (sources.py lines
180-210) at real directory `d`: a directory whose real path is already
visited is pruned (`del dirs` and `continue`, yielding nothing); else its
files are yielded, the directory is marked visited, and the walk descends
into its subdirectory entries minus the already-visited ones (the
`removals` loop).  The fuel only bounds the recursion depth; `fs.nDirs + 1`
is always enough, as the termination theorem below proves. -/
def walkAux (fs : FS) : Nat → Nat → List Nat → List (Nat × String) × List Nat
  | 0, _, vis => ([], vis)
  | fuel + 1, d, vis =>
    if d ∈ vis then ([], vis)
    else
      let out := (fs.files d).map (fun f => (d, f))
      let vis1 := d :: vis
      let children := (fs.entries d).filter (fun c => decide (c ∉ vis1))
      let r := walkChildren fs fuel children vis1
      (out ++ r.1, r.2)
termination_by fuel _ _ => (fuel, 0, 0)

/-- Descends into a list of pruned subdirectory entries in order,
threading the visited set, as the top-down `os.walk` does after the
caller has edited `dirs`. -/
def walkChildren (fs : FS) : Nat → List Nat → List Nat → List (Nat × String) × List Nat
  | _, [], vis => ([], vis)
  | fuel, c :: cs, vis =>
    let r1 := walkAux fs fuel c vis
    let r2 := walkChildren fs fuel cs r1.2
    (r1.1 ++ r2.1, r2.2)
termination_by fuel cs _ => (fuel, 1, cs.length)

end

/-- Models `files_in_project(curpath)` (sources.py lines 180-210): the
walk from the root with an initially empty visited set.  The yielded
pairs are the real files, each named by its real directory and file
name, matching the `os.path.realpath` applied to every yielded path. -/
def files_in_project (fs : FS) (root : Nat) : List (Nat × String) :=
  (walkAux fs (fs.nDirs + 1) root []).1

/-- Invariant of the visited set threaded through the walk: its
members are pairwise distinct real directories of the filesystem. -/
def VisOk (fs : FS) (vis : List Nat) : Prop :=
  vis.Nodup ∧ ∀ x ∈ vis, x < fs.nDirs

/-- Fuel adequacy: the fuel exceeds the number of real directories not
yet visited, so the walk never exhausts it. -/
def FuelOk (fs : FS) (f : Nat) (vis : List Nat) : Prop :=
  fs.nDirs + 1 ≤ f + vis.length

/-- Graph reachability along resolved subdirectory entries, from the walk
root; the root itself is reachable. -/
inductive Reach (fs : FS) (root : Nat) : Nat → Prop where
  | refl : Reach fs root root
  | step {d c : Nat} : Reach fs root d → c ∈ fs.entries d → Reach fs root c

/-- Reachability through directories that avoid a visited set: every
directory on the path, the endpoints included, is outside `vis`. -/
inductive ReachAvoid (fs : FS) (vis : List Nat) (d : Nat) : Nat → Prop where
  | refl (h : d ∉ vis) : ReachAvoid fs vis d d
  | step {x y : Nat} (hx : ReachAvoid fs vis d x) (hy : y ∈ fs.entries x)
      (hv : y ∉ vis) : ReachAvoid fs vis d y

/-- Sample two-directory filesystem whose directories link to each
other, forming a symlink cycle; used by the walk witness. -/
def CYCLE_FS : FS :=
  ⟨2, fun d => if d = 0 then [1] else if d = 1 then [0] else [],
    fun d => if d = 0 then ["a"] else if d = 1 then ["b"] else []⟩

/-- Sample language used by concrete witnesses, after the test fixture
for English - United States. -/
def LANGUAGE_EN : Language :=
  ⟨94, "en-us".toList, "English - United States".toList, "ltr".toList⟩

/-- Sample language used by concrete witnesses, after the test fixture
for Chinese - China. -/
def LANGUAGE_CN : Language :=
  ⟨46, "zh-cn".toList, "Chinese - China".toList, "ltr".toList⟩

/-- The multi-dot fixture path from the extension regression test. -/
def MULTIDOT_FILE : TranslationFile :=
  ⟨"./path/some-path/Resource.That.Has.Many.Extensions.json.yml".toList, LANGUAGE_EN, []⟩

/-! Helper lemmas. -/

theorem firstDotSplit (s : Str) (h : '.' ∈ s) :
    ∃ pre post, s = pre ++ '.' :: post ∧ '.' ∉ pre ∧
      s.takeWhile (fun c => c != '.') = pre ∧ s.drop (pre.length + 1) = post := by
  induction s with
  | nil => cases h
  | cons c rest ih =>
    by_cases hc : c = '.'
    · subst hc
      exact ⟨[], rest, rfl, by simp, by simp [List.takeWhile], by simp⟩
    · have hmem : '.' ∈ rest := by
        rcases List.mem_cons.mp h with h1 | h1
        · exact absurd h1.symm hc
        · exact h1
      obtain ⟨pre, post, h1, h2, h3, h4⟩ := ih hmem
      have hb : (c != '.') = true := by simp [bne_iff_ne]; exact hc
      refine ⟨c :: pre, post, by simp [h1], ?_, ?_, ?_⟩
      · simp only [List.mem_cons, not_or]
        exact ⟨fun hcc => hc hcc.symm, h2⟩
      · rw [List.takeWhile_cons, hb]
        simpa using h3
      · simpa using h4

theorem extension_of_dot_name (f : TranslationFile) (h : '.' ∈ f.name) :
    ∃ pre post, f.name = pre ++ '.' :: post ∧ '.' ∉ pre ∧ f.extension = some post := by
  obtain ⟨pre, post, h1, h2, h3, h4⟩ := firstDotSplit f.name h
  refine ⟨pre, post, h1, h2, ?_⟩
  have hne : ¬ pre.length = f.name.length := by
    rw [h1]
    simp only [List.length_append, List.length_cons]
    omega
  simp only [TranslationFile.extension, h3, h4, hne, if_false]

theorem foldl_lastWins (ext : Str) (l : List (Str × String)) (acc : Option String) :
    l.foldl (fun a kv => if kv.1 = ext then some kv.2 else a) acc =
      match (l.filter (fun kv => kv.1 = ext)).getLast? with
      | some kv => some kv.2
      | none => acc := by
  induction l generalizing acc with
  | nil => rfl
  | cons kv rest ih =>
    rw [List.foldl_cons]
    by_cases hk : kv.1 = ext
    · rw [if_pos hk, ih]
      have hfc : List.filter (fun kv => decide (kv.1 = ext)) (kv :: rest) =
          kv :: List.filter (fun kv => decide (kv.1 = ext)) rest := by
        rw [List.filter_cons, if_pos (by simpa using hk)]
      rw [hfc]
      cases hff : List.filter (fun kv => decide (kv.1 = ext)) rest with
      | nil => simp
      | cons a as =>
        rw [List.getLast?_cons_cons]
        cases hgl : (a :: as).getLast? with
        | none => exact absurd (List.getLast?_eq_none_iff.mp hgl) (by simp)
        | some b => rfl
    · rw [if_neg hk, ih]
      have hfc : List.filter (fun kv => decide (kv.1 = ext)) (kv :: rest) =
          List.filter (fun kv => decide (kv.1 = ext)) rest := by
        rw [List.filter_cons, if_neg (by simpa using hk)]
      rw [hfc]

/-! C7 -/

/-- C7: the `extension` property of a `TranslationFile` whose basename
contains a dot is everything after the first dot of the basename; on the
multi-dot fixture it is `That.Has.Many.Extensions.json.yml`, not `yml`,
while the last-dot rule used for `<extension>` substitution gives `.yml`
on the same basename. -/
theorem c7_extension_uses_first_dot :
    (∀ f : TranslationFile, '.' ∈ f.name →
      ∃ pre post, f.name = pre ++ '.' :: post ∧ '.' ∉ pre ∧ f.extension = some post) ∧
    MULTIDOT_FILE.extension = some "That.Has.Many.Extensions.json.yml".toList ∧
    MULTIDOT_FILE.extension ≠ some "yml".toList ∧
    extOfBase MULTIDOT_FILE.name = ".yml".toList := by
  refine ⟨extension_of_dot_name, by decide, by decide, by decide⟩

/-- Witness for C7 at the multi-dot fixture. -/
theorem c7_extension_uses_first_dot_witness :
    ∃ pre post, MULTIDOT_FILE.name = pre ++ '.' :: post ∧ '.' ∉ pre ∧
      MULTIDOT_FILE.extension = some post :=
  c7_extension_uses_first_dot.1 MULTIDOT_FILE (by decide)

/-! C10 -/

/-- C10: a `TranslationFile` whose basename contains no dot has
`extension = none` (not the empty string), and `get_content_type_code`
on it always fails with `FileExtensionNotAllowed`, since `None` is never
a key of the extension index. -/
theorem c10_no_dot_extension_none (f : TranslationFile) (h : '.' ∉ f.name) :
    f.extension = none ∧
      get_content_type_code f = Except.error ContentErr.fileExtensionNotAllowed := by
  have htw : f.name.takeWhile (fun c => c != '.') = f.name := by
    apply List.takeWhile_eq_self_iff.mpr
    intro c hc
    simp only [bne_iff_ne, ne_eq, decide_eq_true_eq]
    intro hcc
    exact h (hcc ▸ hc)
  have hext : f.extension = none := by
    simp [TranslationFile.extension, htw]
  exact ⟨hext, by simp [get_content_type_code, hext]⟩

/-- Witness for C10: a dot-free basename. -/
theorem c10_no_dot_extension_none_witness :
    (⟨"some-path/noext".toList, LANGUAGE_EN, []⟩ : TranslationFile).extension = none ∧
      get_content_type_code ⟨"some-path/noext".toList, LANGUAGE_EN, []⟩ =
        Except.error ContentErr.fileExtensionNotAllowed :=
  c10_no_dot_extension_none ⟨"some-path/noext".toList, LANGUAGE_EN, []⟩ (by decide)

/-! C8 -/

/-- C8: the inverse extension index resolves a multiply-claimed
extension to the later-declared content type (in general the last
binding in declaration order wins); in particular `yml` and `yaml`
resolve to `YAMLi18n`, not `YAML`, and `xliff` and `xlf` resolve to
`XLIFF1.2`, not `xliff`; an extension absent from the index makes
`get_content_type_code` fail with `FileExtensionNotAllowed`. -/
theorem c8_extension_index_later_wins :
    (∀ ext : Str, lookupAllowed ext =
      match (allowedPairs.filter (fun kv => kv.1 = ext)).getLast? with
      | some kv => some kv.2
      | none => none) ∧
    lookupAllowed "yml".toList = some "YAMLi18n" ∧
    lookupAllowed "yaml".toList = some "YAMLi18n" ∧
    lookupAllowed "xliff".toList = some "XLIFF1.2" ∧
    lookupAllowed "xlf".toList = some "XLIFF1.2" ∧
    (∀ f : TranslationFile, (∀ e, f.extension = some e → lookupAllowed e = none) →
      get_content_type_code f = Except.error ContentErr.fileExtensionNotAllowed) := by
  refine ⟨fun ext => foldl_lastWins ext allowedPairs none, by decide, by decide, by decide,
    by decide, ?_⟩
  intro f hf
  rcases hext : f.extension with _ | e
  · simp [get_content_type_code, hext]
  · simp [get_content_type_code, hext, hf e hext]

/-- Witness for C8: a file with extension `yml` resolves to `YAMLi18n`,
and an unknown extension is rejected. -/
theorem c8_extension_index_later_wins_witness :
    lookupAllowed "yml".toList = some "YAMLi18n" ∧
      get_content_type_code ⟨"strings.unknownext".toList, LANGUAGE_EN, []⟩ =
        Except.error ContentErr.fileExtensionNotAllowed :=
  ⟨c8_extension_index_later_wins.2.1,
    c8_extension_index_later_wins.2.2.2.2.2 ⟨"strings.unknownext".toList, LANGUAGE_EN, []⟩
      (fun e he => by
        have h0 : (⟨"strings.unknownext".toList, LANGUAGE_EN, []⟩ : TranslationFile).extension =
            some "unknownext".toList := by decide
        rw [h0] at he
        injection he with he2
        rw [← he2]
        decide)⟩

/-! Machinery for reasoning about `replaceAll` and `replTok`. -/

theorem repGo_fuel_eq (pat rep : Str) (hpat : pat ≠ []) :
    ∀ f1 f2 s, s.length ≤ f1 → s.length ≤ f2 → repGo pat rep f1 s = repGo pat rep f2 s := by
  intro f1
  induction f1 with
  | zero =>
    intro f2 s h1 _
    have hs : s = [] := List.eq_nil_of_length_eq_zero (Nat.le_zero.mp h1)
    subst hs
    simp [repGo]
  | succ f ih =>
    intro f2 s h1 h2
    cases s with
    | nil => simp [repGo]
    | cons c s2 =>
      cases f2 with
      | zero => simp at h2
      | succ g =>
        simp only [repGo]
        by_cases hp : pat.isPrefixOf (c :: s2)
        · rw [if_pos hp, if_pos hp]
          congr 1
          have hlp : 1 ≤ pat.length := List.length_pos.mpr hpat
          have hlen : ((c :: s2).drop pat.length).length ≤ f := by
            simp only [List.length_drop, List.length_cons]
            simp only [List.length_cons] at h1
            omega
          have hlen2 : ((c :: s2).drop pat.length).length ≤ g := by
            simp only [List.length_drop, List.length_cons]
            simp only [List.length_cons] at h2
            omega
          exact ih g ((c :: s2).drop pat.length) hlen hlen2
        · rw [if_neg hp, if_neg hp]
          congr 1
          have hlen : s2.length ≤ f := by simp only [List.length_cons] at h1; omega
          have hlen2 : s2.length ≤ g := by simp only [List.length_cons] at h2; omega
          exact ih g s2 hlen hlen2

theorem replaceAll_nil (pat rep : Str) : replaceAll [] pat rep = [] := by
  simp [replaceAll, repGo]

theorem replaceAll_pos (pat rep : Str) (c : Char) (s : Str) (hpat : pat ≠ [])
    (hp : pat.isPrefixOf (c :: s) = true) :
    replaceAll (c :: s) pat rep = rep ++ replaceAll ((c :: s).drop pat.length) pat rep := by
  show repGo pat rep (s.length + 1) (c :: s) = _
  simp only [repGo]
  rw [if_pos hp]
  congr 1
  have hlp : 1 ≤ pat.length := List.length_pos.mpr hpat
  apply repGo_fuel_eq pat rep hpat
  · simp only [List.length_drop, List.length_cons]
    omega
  · simp only [List.length_drop, List.length_cons]
    omega

theorem replaceAll_neg (pat rep : Str) (c : Char) (s : Str)
    (hp : pat.isPrefixOf (c :: s) = false) :
    replaceAll (c :: s) pat rep = c :: replaceAll s pat rep := by
  show repGo pat rep (s.length + 1) (c :: s) = _
  simp only [repGo]
  rw [if_neg (by simp [hp])]
  rfl

theorem repTokGo_fuel_eq (pat : Str) (rep : List Tok) (hpat : pat ≠ []) :
    ∀ f1 f2 s, s.length ≤ f1 → s.length ≤ f2 →
      repTokGo pat rep f1 s = repTokGo pat rep f2 s := by
  intro f1
  induction f1 with
  | zero =>
    intro f2 s h1 _
    have hs : s = [] := List.eq_nil_of_length_eq_zero (Nat.le_zero.mp h1)
    subst hs
    simp [repTokGo]
  | succ f ih =>
    intro f2 s h1 h2
    cases s with
    | nil => simp [repTokGo]
    | cons c s2 =>
      cases f2 with
      | zero => simp at h2
      | succ g =>
        simp only [repTokGo]
        by_cases hp : (embed pat).isPrefixOf (c :: s2)
        · rw [if_pos hp, if_pos hp]
          congr 1
          have hlp : 1 ≤ pat.length := List.length_pos.mpr hpat
          have hlen : ((c :: s2).drop pat.length).length ≤ f := by
            simp only [List.length_drop, List.length_cons]
            simp only [List.length_cons] at h1
            omega
          have hlen2 : ((c :: s2).drop pat.length).length ≤ g := by
            simp only [List.length_drop, List.length_cons]
            simp only [List.length_cons] at h2
            omega
          exact ih g ((c :: s2).drop pat.length) hlen hlen2
        · rw [if_neg hp, if_neg hp]
          congr 1
          have hlen : s2.length ≤ f := by simp only [List.length_cons] at h1; omega
          have hlen2 : s2.length ≤ g := by simp only [List.length_cons] at h2; omega
          exact ih g s2 hlen hlen2

theorem replTok_nil (pat : Str) (rep : List Tok) : replTok [] pat rep = [] := by
  simp [replTok, repTokGo]

theorem replTok_pos (pat : Str) (rep : List Tok) (c : Tok) (s : List Tok) (hpat : pat ≠ [])
    (hp : (embed pat).isPrefixOf (c :: s) = true) :
    replTok (c :: s) pat rep = rep ++ replTok ((c :: s).drop pat.length) pat rep := by
  show repTokGo pat rep (s.length + 1) (c :: s) = _
  simp only [repTokGo]
  rw [if_pos hp]
  congr 1
  have hlp : 1 ≤ pat.length := List.length_pos.mpr hpat
  apply repTokGo_fuel_eq pat rep hpat
  · simp only [List.length_drop, List.length_cons]
    omega
  · simp only [List.length_drop, List.length_cons]
    omega

theorem replTok_neg (pat : Str) (rep : List Tok) (c : Tok) (s : List Tok)
    (hp : (embed pat).isPrefixOf (c :: s) = false) :
    replTok (c :: s) pat rep = c :: replTok s pat rep := by
  show repTokGo pat rep (s.length + 1) (c :: s) = _
  simp only [repTokGo]
  rw [if_neg (by simp [hp])]
  rfl

theorem embed_isPrefixOf (pat s : Str) : (embed pat).isPrefixOf (embed s) = pat.isPrefixOf s := by
  induction pat generalizing s with
  | nil => simp [embed, List.isPrefixOf]
  | cons a pa ih =>
    cases s with
    | nil => simp [embed, List.isPrefixOf]
    | cons b sb =>
      simp only [embed, List.map_cons, List.isPrefixOf]
      have hbeq : (Tok.chr a == Tok.chr b) = (a == b) := by
        by_cases h : a = b
        · simp [h]
        · simp [h, Tok.chr.injEq]
      rw [hbeq]
      have := ih sb
      simp only [embed] at this
      rw [this]

theorem render_append (a b : List Tok) (code langv : Str) :
    render (a ++ b) code langv = render a code langv ++ render b code langv := by
  simp [render]

theorem render_embed (s : Str) (code langv : Str) : render (embed s) code langv = s := by
  induction s with
  | nil => rfl
  | cons c rest ih => simp only [embed, List.map_cons, render, List.flatMap_cons] at ih ⊢; simp [renderTok, ih]

theorem containsSub_eq_false_iff (s pat : Str) (hpat : pat ≠ []) :
    containsSub s pat = false ↔ ∀ k, pat.isPrefixOf (s.drop k) = false := by
  induction s with
  | nil =>
    simp only [containsSub, List.isEmpty_iff]
    constructor
    · intro _ k
      rw [List.drop_nil]
      cases pat with
      | nil => exact absurd rfl hpat
      | cons a pa => rfl
    · intro _
      cases pat with
      | nil => exact absurd rfl hpat
      | cons a pa => simp
  | cons c s2 ih =>
    simp only [containsSub, Bool.or_eq_false_iff]
    constructor
    · rintro ⟨h1, h2⟩ k
      cases k with
      | zero => exact h1
      | succ k2 => exact (ih.mp h2) k2
    · intro h
      exact ⟨h 0, ih.mpr (fun k => h (k + 1))⟩

theorem isPrefixOf_cons_false_of_head (pat : Str) (h : Char) (t : Str) (a : Char) (y : Str)
    (hpat : pat = h :: t) (hne : ¬ h = a) : pat.isPrefixOf (a :: y) = false := by
  subst hpat
  simp [List.isPrefixOf, hne]

theorem containsSub_false_of_no_head (s pat : Str) (h : Char) (t : Str)
    (hpat : pat = h :: t) (hs : h ∉ s) : containsSub s pat = false := by
  induction s with
  | nil => simp [containsSub, hpat]
  | cons c s2 ih =>
    have hc : ¬ h = c := fun he => hs (he ▸ List.mem_cons_self c s2)
    have hs2 : h ∉ s2 := fun he => hs (List.mem_cons_of_mem c he)
    simp only [containsSub, Bool.or_eq_false_iff]
    exact ⟨isPrefixOf_cons_false_of_head pat h t c s2 hpat hc, ih hs2⟩

theorem replaceAll_of_not_contains (s pat rep : Str) (hpat : pat ≠ [])
    (h : containsSub s pat = false) : replaceAll s pat rep = s := by
  induction s with
  | nil => exact replaceAll_nil pat rep
  | cons c s2 ih =>
    simp only [containsSub, Bool.or_eq_false_iff] at h
    rw [replaceAll_neg pat rep c s2 h.1, ih h.2]

theorem replaceAll_passthrough (w r pat rep : Str) (h : Char) (t : Str)
    (hpat : pat = h :: t) (hw : h ∉ w) :
    replaceAll (w ++ r) pat rep = w ++ replaceAll r pat rep := by
  induction w with
  | nil => rfl
  | cons a w2 ih =>
    have ha : ¬ h = a := fun he => hw (he ▸ List.mem_cons_self a w2)
    have hw2 : h ∉ w2 := fun he => hw (List.mem_cons_of_mem a he)
    rw [List.cons_append,
      replaceAll_neg pat rep a (w2 ++ r)
        (isPrefixOf_cons_false_of_head pat h t a (w2 ++ r) hpat ha),
      ih hw2, List.cons_append]

theorem replaceAll_posG (pat rep s : Str) (hpat : pat ≠ []) (hp : pat.isPrefixOf s = true) :
    replaceAll s pat rep = rep ++ replaceAll (s.drop pat.length) pat rep := by
  cases s with
  | nil =>
    cases pat with
    | nil => exact absurd rfl hpat
    | cons a pa => simp [List.isPrefixOf] at hp
  | cons c s2 => exact replaceAll_pos pat rep c s2 hpat hp

theorem replTok_posG (pat : Str) (rep s : List Tok) (hpat : pat ≠ [])
    (hp : (embed pat).isPrefixOf s = true) :
    replTok s pat rep = rep ++ replTok (s.drop pat.length) pat rep := by
  cases s with
  | nil =>
    cases pat with
    | nil => exact absurd rfl hpat
    | cons a pa => simp [embed, List.isPrefixOf] at hp
  | cons c s2 => exact replTok_pos pat rep c s2 hpat hp

theorem render_cons (t : Tok) (ts : List Tok) (code langv : Str) :
    render (t :: ts) code langv = renderTok code langv t ++ render ts code langv := by
  simp [render]

theorem wordChar_not_special (c : Char) (h : isWordChar c = true) :
    c ≠ '<' ∧ c ≠ '>' ∧ c ≠ '-' ∧ c ≠ '.' ∧ c ≠ '/' := by
  refine ⟨?_, ?_, ?_, ?_, ?_⟩ <;> (intro he; subst he; revert h; decide)

theorem locale_shape (code : Str) (h : isLocaleCode code = true) :
    ∃ c0 c1 c3 c4, code = [c0, c1, '-', c3, c4] ∧ isWordChar c0 = true ∧
      isWordChar c1 = true ∧ isWordChar c3 = true ∧ isWordChar c4 = true := by
  match code, h with
  | [a, b, c, d, e], h =>
    simp only [isLocaleCode, Bool.and_eq_true, beq_iff_eq] at h
    exact ⟨a, b, d, e, by rw [h.1.1.2], h.1.1.1.1, h.1.1.1.2, h.1.2, h.2⟩

theorem locale_no_lt (code : Str) (h : isLocaleCode code = true) : '<' ∉ code := by
  obtain ⟨c0, c1, c3, c4, hc, h0, h1, h3, h4⟩ := locale_shape code h
  subst hc
  intro hm
  simp only [List.mem_cons, List.not_mem_nil, or_false] at hm
  rcases hm with h5 | h5 | h5 | h5 | h5
  · exact (wordChar_not_special c0 h0).1 h5.symm
  · exact (wordChar_not_special c1 h1).1 h5.symm
  · exact absurd h5 (by decide)
  · exact (wordChar_not_special c3 h3).1 h5.symm
  · exact (wordChar_not_special c4 h4).1 h5.symm

theorem suffix_no_prefix_locale (t : Str) (ht : t <:+ llcPat) (hne : t ≠ [])
    (code : Str) (hcode : isLocaleCode code = true) (r : Str) :
    t.isPrefixOf (code ++ r) = false := by
  obtain ⟨c0, c1, c3, c4, hc, h0, h1, h3, h4⟩ := locale_shape code hcode
  subst hc
  by_cases h3l : 3 ≤ t.length
  · rcases t with _ | ⟨t0, _ | ⟨t1, _ | ⟨t2, trest⟩⟩⟩
    · simp at h3l
    · simp at h3l
    · simp at h3l
    · apply Bool.eq_false_iff.mpr
      intro hp
      obtain ⟨u, hu⟩ := List.isPrefixOf_iff_prefix.mp hp
      simp only [List.cons_append, List.append_assoc] at hu
      have ht2 : t2 = '-' := by
        simp only [List.cons.injEq] at hu
        exact hu.2.2.1
      have hmem : '-' ∈ llcPat := ht.subset (by rw [← ht2]; simp)
      revert hmem
      decide
  · obtain ⟨u, hu⟩ := ht
    have hllc : u ++ t ≠ [] := by rw [hu]; decide
    have key : ∀ (l : Str) (hl : l ≠ []), l = llcPat → l.getLast hl = '>' := by
      intro l hl he
      subst he
      rfl
    have hlast : t.getLast hne = '>' := by
      rw [← List.getLast_append' u t hne]
      exact key (u ++ t) hllc hu
    have hl1 : 1 ≤ t.length := List.length_pos.mpr hne
    have hlen : t.length = 1 ∨ t.length = 2 := by omega
    rcases t with _ | ⟨t0, _ | ⟨t1, trest⟩⟩
    · exact absurd rfl hne
    · have ht0 : t0 = '>' := hlast
      subst ht0
      apply Bool.eq_false_iff.mpr
      intro hp
      simp only [List.cons_append, List.isPrefixOf, List.isPrefixOf_nil_left,
        Bool.and_true, beq_iff_eq] at hp
      exact (wordChar_not_special c0 h0).2.1 hp.symm
    · have htr : trest = [] := by
        rcases hlen with hh | hh
        · simp at hh
        · simpa using hh
      subst htr
      have ht1 : t1 = '>' := by simpa [List.getLast] using hlast
      subst ht1
      apply Bool.eq_false_iff.mpr
      intro hp
      simp only [List.cons_append, List.isPrefixOf, List.isPrefixOf_nil_left,
        Bool.and_true, Bool.and_eq_true, beq_iff_eq] at hp
      exact (wordChar_not_special c1 h1).2.1 hp.2.symm

theorem spanFree (code langv : Str) (hcode : isLocaleCode code = true) :
    ∀ (t : Str) (s : List Tok), t <:+ llcPat → Tok.langG ∉ s →
      t.isPrefixOf (render s code langv) = true → (embed t).isPrefixOf s = true := by
  intro t
  induction t with
  | nil => intro s _ _ _; simp [embed, List.isPrefixOf]
  | cons a t2 ih =>
    intro s hsuf hlang hp
    cases s with
    | nil => simp [render, List.isPrefixOf] at hp
    | cons tk s2 =>
      cases tk with
      | chr c =>
        rw [render_cons] at hp
        simp only [renderTok, List.singleton_append, List.isPrefixOf,
          Bool.and_eq_true] at hp
        obtain ⟨hac, hrest⟩ := hp
        have ht2 : t2 <:+ llcPat := (List.suffix_cons a t2).trans hsuf
        have hlang2 : Tok.langG ∉ s2 := fun hm => hlang (List.mem_cons_of_mem _ hm)
        have hih := ih s2 ht2 hlang2 hrest
        simp only [embed, List.map_cons, List.isPrefixOf, Bool.and_eq_true]
        constructor
        · simp only [beq_iff_eq] at hac
          simp [hac]
        · exact hih
      | codeG =>
        rw [render_cons] at hp
        simp only [renderTok] at hp
        rw [suffix_no_prefix_locale (a :: t2) hsuf (by simp) code hcode
          (render s2 code langv)] at hp
        cases hp
      | langG => exact absurd (List.mem_cons_self _ _) hlang

theorem comm1_aux (pat code langv : Str) (hpat : pat ≠ []) :
    ∀ n p, List.length p ≤ n →
      render (replTok (embed p) pat [Tok.codeG]) code langv = replaceAll p pat code := by
  intro n
  induction n with
  | zero =>
    intro p hp
    have hnil : p = [] := List.eq_nil_of_length_eq_zero (Nat.le_zero.mp hp)
    subst hnil
    simp [embed, replTok_nil, replaceAll_nil, render]
  | succ m ih =>
    intro p hp
    cases p with
    | nil => simp [embed, replTok_nil, replaceAll_nil, render]
    | cons c s =>
      by_cases hpre : pat.isPrefixOf (c :: s) = true
      · have hpre2 : (embed pat).isPrefixOf (Tok.chr c :: embed s) = true := by
          rw [show Tok.chr c :: embed s = embed (c :: s) from rfl, embed_isPrefixOf]
          exact hpre
        rw [show embed (c :: s) = Tok.chr c :: embed s from rfl]
        rw [replTok_pos pat [Tok.codeG] (Tok.chr c) (embed s) hpat hpre2]
        rw [replaceAll_pos pat code c s hpat hpre]
        rw [render_append]
        have hdrop : (Tok.chr c :: embed s).drop pat.length = embed ((c :: s).drop pat.length) := by
          rw [show Tok.chr c :: embed s = embed (c :: s) from rfl]
          simp [embed, List.map_drop]
        rw [hdrop]
        have hlp : 1 ≤ pat.length := List.length_pos.mpr hpat
        have hrec := ih ((c :: s).drop pat.length)
          (by
            simp only [List.length_drop, List.length_cons]
            simp only [List.length_cons] at hp
            omega)
        rw [hrec]
        congr 1
        simp [render, renderTok]
      · have hb : pat.isPrefixOf (c :: s) = false := Bool.eq_false_iff.mpr hpre
        have hpre2 : (embed pat).isPrefixOf (Tok.chr c :: embed s) = false := by
          rw [show Tok.chr c :: embed s = embed (c :: s) from rfl, embed_isPrefixOf]
          exact hb
        rw [show embed (c :: s) = Tok.chr c :: embed s from rfl]
        rw [replTok_neg pat [Tok.codeG] (Tok.chr c) (embed s) hpre2]
        rw [replaceAll_neg pat code c s hb]
        rw [render_cons]
        simp only [renderTok, List.singleton_append]
        congr 1
        exact ih s (by simp only [List.length_cons] at hp; omega)

theorem replTok_no_mem (pat : Str) (rep : List Tok) (x : Tok) (hpat : pat ≠ []) :
    ∀ n (s : List Tok), s.length ≤ n → x ∉ s → x ∉ rep → x ∉ replTok s pat rep := by
  intro n
  induction n with
  | zero =>
    intro s hlen hs _
    have hnil : s = [] := List.eq_nil_of_length_eq_zero (Nat.le_zero.mp hlen)
    subst hnil
    rw [replTok_nil]
    exact List.not_mem_nil x
  | succ m ih =>
    intro s hlen hs hr
    cases s with
    | nil =>
      rw [replTok_nil]
      exact List.not_mem_nil x
    | cons t s2 =>
      by_cases hpre : (embed pat).isPrefixOf (t :: s2) = true
      · rw [replTok_pos pat rep t s2 hpat hpre]
        intro hmem
        rcases List.mem_append.mp hmem with h1 | h1
        · exact hr h1
        · have hlp : 1 ≤ pat.length := List.length_pos.mpr hpat
          refine ih ((t :: s2).drop pat.length)
            (by
              simp only [List.length_drop, List.length_cons]
              simp only [List.length_cons] at hlen
              omega)
            (fun hm => hs (List.drop_subset pat.length (t :: s2) hm)) hr h1
      · rw [replTok_neg pat rep t s2 (Bool.eq_false_iff.mpr hpre)]
        intro hmem
        rcases List.mem_cons.mp hmem with h1 | h1
        · exact hs (h1 ▸ List.mem_cons_self t s2)
        · exact ih s2 (by simp only [List.length_cons] at hlen; omega)
            (fun hm => hs (List.mem_cons_of_mem t hm)) hr h1

theorem comm2_aux (code langv : Str) (hcode : isLocaleCode code = true) :
    ∀ n (s : List Tok), s.length ≤ n → Tok.langG ∉ s →
      render (replTok s llcPat [Tok.langG]) code langv =
        replaceAll (render s code langv) llcPat langv := by
  intro n
  induction n with
  | zero =>
    intro s hlen _
    have hnil : s = [] := List.eq_nil_of_length_eq_zero (Nat.le_zero.mp hlen)
    subst hnil
    simp [replTok_nil, replaceAll_nil, render]
  | succ m ih =>
    intro s hlen hlang
    cases s with
    | nil => simp [replTok_nil, replaceAll_nil, render]
    | cons tk s2 =>
      by_cases hpre : (embed llcPat).isPrefixOf (tk :: s2) = true
      · obtain ⟨u, hu⟩ := List.isPrefixOf_iff_prefix.mp hpre
        have hlenllc : (embed llcPat).length = llcPat.length := by simp [embed]
        have hudrop : (tk :: s2).drop llcPat.length = u := by
          rw [← hu, ← hlenllc, List.drop_left]
        rw [replTok_pos llcPat [Tok.langG] tk s2 (by decide) hpre]
        rw [hudrop]
        conv_rhs => rw [← hu]
        rw [render_append]
        conv_rhs => rw [render_append, render_embed]
        have hllcpre : llcPat.isPrefixOf (llcPat ++ render u code langv) = true :=
          List.isPrefixOf_iff_prefix.mpr (List.prefix_append llcPat _)
        rw [replaceAll_posG llcPat langv _ (by decide) hllcpre, List.drop_left]
        have hlang2 : Tok.langG ∉ u := by
          intro hm
          exact hlang (hu ▸ List.mem_append_right (embed llcPat) hm)
        have hlenu : u.length ≤ m := by
          have h2 := congrArg List.length hu
          simp only [List.length_append, List.length_cons] at h2
          simp only [List.length_cons] at hlen
          have : (embed llcPat).length = 20 := by decide
          omega
        rw [ih u hlenu hlang2]
        congr 1
        simp [render, renderTok]
      · have hb : (embed llcPat).isPrefixOf (tk :: s2) = false := Bool.eq_false_iff.mpr hpre
        have hlang2 : Tok.langG ∉ s2 := fun hm => hlang (List.mem_cons_of_mem tk hm)
        have hlen2 : s2.length ≤ m := by simp only [List.length_cons] at hlen; omega
        cases tk with
        | chr c =>
          rw [replTok_neg llcPat [Tok.langG] (Tok.chr c) s2 hb]
          rw [render_cons, render_cons]
          simp only [renderTok, List.singleton_append]
          have hnp : llcPat.isPrefixOf (c :: render s2 code langv) = false := by
            cases hq : llcPat.isPrefixOf (c :: render s2 code langv) with
            | false => rfl
            | true =>
              have hspan := spanFree code langv hcode llcPat (Tok.chr c :: s2)
                List.suffix_rfl hlang
                (by rw [render_cons]; simpa [renderTok] using hq)
              rw [hspan] at hb
              cases hb
          rw [replaceAll_neg llcPat langv c _ hnp]
          rw [ih s2 hlen2 hlang2]
        | codeG =>
          rw [replTok_neg llcPat [Tok.langG] Tok.codeG s2 hb]
          rw [render_cons, render_cons]
          simp only [renderTok]
          have hlt : '<' ∉ code := locale_no_lt code hcode
          rw [replaceAll_passthrough code (render s2 code langv) llcPat langv '<'
            "language_lang_code>".toList (by decide) hlt]
          rw [ih s2 hlen2 hlang2]
        | langG => exact absurd (List.mem_cons_self _ _) hlang

theorem render_no_lt (toks : List Tok) (code langv : Str) (htk : Tok.chr '<' ∉ toks)
    (hc : '<' ∉ code) (hl : '<' ∉ langv) : '<' ∉ render toks code langv := by
  induction toks with
  | nil => simp [render]
  | cons t ts ih =>
    have htk2 : Tok.chr '<' ∉ ts := fun hm => htk (List.mem_cons_of_mem t hm)
    rw [render_cons]
    intro hm
    rcases List.mem_append.mp hm with h1 | h1
    · cases t with
      | chr c =>
        simp only [renderTok, List.mem_singleton] at h1
        exact htk (h1 ▸ List.mem_cons_self _ _)
      | codeG => exact hc h1
      | langG => exact hl h1
    · exact ih htk2 h1

theorem lang_of_locale (code : Str) (h : isLocaleCode code = true) :
    ∃ c0 c1, code.takeWhile (fun c => c != '-') = [c0, c1] ∧ isWordChar c0 = true ∧
      isWordChar c1 = true := by
  obtain ⟨c0, c1, c3, c4, hc, h0, h1, h3, h4⟩ := locale_shape code h
  subst hc
  refine ⟨c0, c1, ?_, h0, h1⟩
  have hb0 : (c0 != '-') = true := by
    simp only [bne_iff_ne, ne_eq, decide_eq_true_eq]
    exact (wordChar_not_special c0 h0).2.2.1
  have hb1 : (c1 != '-') = true := by
    simp only [bne_iff_ne, ne_eq, decide_eq_true_eq]
    exact (wordChar_not_special c1 h1).2.2.1
  rw [List.takeWhile_cons, hb0, List.takeWhile_cons, hb1, List.takeWhile_cons]
  simp

theorem substituted_eq_render (p : Str) (l : Language)
    (hnl : Tok.chr '<' ∉ compiledToks p) (hcode : isLocaleCode l.code = true) :
    substituted p l = render (compiledToks p) l.code l.lang := by
  obtain ⟨c0, c1, hlng, hw0, hw1⟩ := lang_of_locale l.code hcode
  have hlang_eq : l.lang = [c0, c1] := hlng
  have hltlang : '<' ∉ l.lang := by
    rw [hlang_eq]
    intro hm
    rcases List.mem_cons.mp hm with h1 | h1
    · exact (wordChar_not_special c0 hw0).1 h1.symm
    · rcases List.mem_cons.mp h1 with h2 | h2
      · exact (wordChar_not_special c1 hw1).1 h2.symm
      · cases h2
  have hX : replaceAll (replaceAll p lcPat l.code) llcPat l.lang =
      render (compiledToks p) l.code l.lang := by
    have hA := comm1_aux lcPat l.code l.lang (by decide) p.length p le_rfl
    have hmid : Tok.langG ∉ replTok (embed p) lcPat [Tok.codeG] :=
      replTok_no_mem lcPat [Tok.codeG] Tok.langG (by decide) (embed p).length (embed p) le_rfl
        (by
          intro hm
          simp only [embed, List.mem_map] at hm
          obtain ⟨c, _, hc⟩ := hm
          cases hc)
        (by decide)
    have hB := comm2_aux l.code l.lang hcode (replTok (embed p) lcPat [Tok.codeG]).length
      (replTok (embed p) lcPat [Tok.codeG]) le_rfl hmid
    rw [hA] at hB
    rw [← hB]
    rfl
  have hltX : '<' ∉ render (compiledToks p) l.code l.lang :=
    render_no_lt (compiledToks p) l.code l.lang hnl (locale_no_lt l.code hcode) hltlang
  show replaceAll (replaceAll (replaceAll
    (replaceAll (replaceAll p lcPat l.code) llcPat l.lang) lnPat l.name)
    lncPat (pyCapitalize l.name)) lnaPat (pyUpper l.name) = _
  rw [hX]
  rw [replaceAll_of_not_contains _ lnPat l.name (by decide)
    (containsSub_false_of_no_head _ lnPat '<' "language_name>".toList (by decide) hltX)]
  rw [replaceAll_of_not_contains _ lncPat (pyCapitalize l.name) (by decide)
    (containsSub_false_of_no_head _ lncPat '<' "language_name_cap>".toList (by decide) hltX)]
  rw [replaceAll_of_not_contains _ lnaPat (pyUpper l.name) (by decide)
    (containsSub_false_of_no_head _ lnaPat '<' "language_name_allcap>".toList (by decide) hltX)]

theorem targetString_eq_render (p : Str) (l : Language) (src : Option Str)
    (hnl : Tok.chr '<' ∉ compiledToks p) (hcode : isLocaleCode l.code = true) :
    targetString p l src = render (compiledToks p) l.code l.lang := by
  obtain ⟨c0, c1, hlng, hw0, hw1⟩ := lang_of_locale l.code hcode
  have hltlang : '<' ∉ l.lang := by
    rw [show l.lang = [c0, c1] from hlng]
    intro hm
    rcases List.mem_cons.mp hm with h1 | h1
    · exact (wordChar_not_special c0 hw0).1 h1.symm
    · rcases List.mem_cons.mp h1 with h2 | h2
      · exact (wordChar_not_special c1 hw1).1 h2.symm
      · cases h2
  have hltX : '<' ∉ render (compiledToks p) l.code l.lang :=
    render_no_lt (compiledToks p) l.code l.lang hnl (locale_no_lt l.code hcode) hltlang
  have hsuf : extPat.isSuffixOf (render (compiledToks p) l.code l.lang) = false := by
    apply Bool.eq_false_iff.mpr
    intro hs
    have hsuf2 : extPat <:+ render (compiledToks p) l.code l.lang :=
      List.isSuffixOf_iff_suffix.mp hs
    exact hltX (hsuf2.subset (by decide : '<' ∈ extPat))
  show (if extPat.isSuffixOf (substituted p l) = true then
      replaceAll (substituted p l) extPat (splitextExt src)
    else substituted p l) = _
  rw [substituted_eq_render p l hnl hcode, hsuf]
  simp

theorem matchToks_chr (c : Char) (ts : List Tok) (x : Char) (xs : Str) :
    matchToks (Tok.chr c :: ts) (x :: xs) =
      if c.toLower = x.toLower then matchToks ts xs else none := rfl

theorem matchToks_codeG (ts : List Tok) (a b c d e : Char) (rest : Str) :
    matchToks (Tok.codeG :: ts) (a :: b :: c :: d :: e :: rest) =
      if isWordChar a && isWordChar b && (c == '-') && isWordChar d && isWordChar e then
        (matchToks ts rest).map (fun cp => ⟨some [a, b, c, d, e], cp.lang⟩)
      else none := rfl

theorem matchToks_langG_some (ts : List Tok) (path : Str) (n : Nat)
    (hfl : fixedLen ts = some n) :
    matchToks (Tok.langG :: ts) path =
      if n ≤ path.length then
        if (path.take (path.length - n)).all isWordChar then
          (matchToks ts (path.drop (path.length - n))).map
            (fun cp => ⟨cp.code, some (path.take (path.length - n))⟩)
        else none
      else none := by
  show (match fixedLen ts with
    | none => none
    | some n =>
      if n ≤ path.length then
        if (path.take (path.length - n)).all isWordChar then
          (matchToks ts (path.drop (path.length - n))).map
            (fun (cp : Caps) => (⟨cp.code, some (path.take (path.length - n))⟩ : Caps))
        else none
      else none) = _
  rw [hfl]

theorem matchToks_langG_none (ts : List Tok) (path : Str) (hfl : fixedLen ts = none) :
    matchToks (Tok.langG :: ts) path = none := by
  show (match fixedLen ts with
    | none => none
    | some n =>
      if n ≤ path.length then
        if (path.take (path.length - n)).all isWordChar then
          (matchToks ts (path.drop (path.length - n))).map
            (fun (cp : Caps) => (⟨cp.code, some (path.take (path.length - n))⟩ : Caps))
        else none
      else none) = none
  rw [hfl]

theorem fixedLen_render (code langv : Str) :
    ∀ ts : List Tok, Tok.langG ∉ ts → (Tok.codeG ∈ ts → code.length = 5) →
      fixedLen ts = some (render ts code langv).length := by
  intro ts
  induction ts with
  | nil =>
    intro _ _
    simp [fixedLen, render]
  | cons t ts2 ih =>
    intro hlang hcode
    cases t with
    | chr c =>
      have hrec := ih (fun hm => hlang (List.mem_cons_of_mem _ hm))
        (fun hm => hcode (List.mem_cons_of_mem _ hm))
      rw [render_cons]
      simp only [fixedLen, renderTok, List.singleton_append, hrec, List.length_cons]
      rfl
    | codeG =>
      have hrec := ih (fun hm => hlang (List.mem_cons_of_mem _ hm))
        (fun hm => hcode (List.mem_cons_of_mem _ hm))
      have h5 : code.length = 5 := hcode (List.mem_cons_self _ _)
      rw [render_cons]
      simp only [fixedLen, renderTok, hrec, List.length_append, h5]
      show some ((render ts2 code langv).length + 5) = some (5 + (render ts2 code langv).length)
      rw [Nat.add_comm]
    | langG => exact absurd (List.mem_cons_self _ _) hlang

theorem matchToks_render (code langv : Str) :
    ∀ ts : List Tok, List.count Tok.codeG ts ≤ 1 → List.count Tok.langG ts ≤ 1 →
      (Tok.codeG ∈ ts → isLocaleCode code = true) →
      (Tok.langG ∈ ts → langv.all isWordChar = true) →
      matchToks ts (render ts code langv) =
        some ⟨if Tok.codeG ∈ ts then some code else none,
              if Tok.langG ∈ ts then some langv else none⟩ := by
  intro ts
  induction ts with
  | nil =>
    intro _ _ _ _
    simp [render, matchToks]
  | cons t ts2 ih =>
    intro hc1 hl1 hcode hlang
    cases t with
    | chr c =>
      have hcnt1 : List.count Tok.codeG ts2 ≤ 1 := by
        rw [List.count_cons_of_ne (by simp)] at hc1
        exact hc1
      have hcnt2 : List.count Tok.langG ts2 ≤ 1 := by
        rw [List.count_cons_of_ne (by simp)] at hl1
        exact hl1
      have hrec := ih hcnt1 hcnt2 (fun hm => hcode (List.mem_cons_of_mem _ hm))
        (fun hm => hlang (List.mem_cons_of_mem _ hm))
      rw [render_cons]
      simp only [renderTok, List.singleton_append]
      rw [matchToks_chr, if_pos rfl, hrec]
      simp [List.mem_cons]
    | codeG =>
      have hc : isLocaleCode code = true := hcode (List.mem_cons_self _ _)
      obtain ⟨c0, c1, c3, c4, hcc, h0, h1, h3, h4⟩ := locale_shape code hc
      subst hcc
      have hnotin : Tok.codeG ∉ ts2 := by
        rw [List.count_cons_self] at hc1
        exact List.count_eq_zero.mp (by omega)
      have hcnt2 : List.count Tok.langG ts2 ≤ 1 := by
        rw [List.count_cons_of_ne (by simp)] at hl1
        exact hl1
      have hrec := ih (by rw [List.count_eq_zero.mpr hnotin]; omega) hcnt2
        (fun hm => absurd hm hnotin)
        (fun hm => hlang (List.mem_cons_of_mem _ hm))
      rw [render_cons]
      simp only [renderTok]
      simp only [List.cons_append, List.nil_append]
      rw [matchToks_codeG, if_pos (by simp [h0, h1, h3, h4]), hrec]
      simp [List.mem_cons, hnotin]
    | langG =>
      have hnotin : Tok.langG ∉ ts2 := by
        rw [List.count_cons_self] at hl1
        exact List.count_eq_zero.mp (by omega)
      have hcnt1 : List.count Tok.codeG ts2 ≤ 1 := by
        rw [List.count_cons_of_ne (by simp)] at hc1
        exact hc1
      have hwa : langv.all isWordChar = true := hlang (List.mem_cons_self _ _)
      have hcode5 : Tok.codeG ∈ ts2 → code.length = 5 := by
        intro hm
        obtain ⟨d0, d1, d3, d4, hdd, _, _, _, _⟩ :=
          locale_shape code (hcode (List.mem_cons_of_mem _ hm))
        rw [hdd]
        rfl
      have hrec := ih hcnt1 (by rw [List.count_eq_zero.mpr hnotin]; omega)
        (fun hm => hcode (List.mem_cons_of_mem _ hm)) (fun hm => absurd hm hnotin)
      rw [render_cons]
      simp only [renderTok]
      rw [matchToks_langG_some ts2 _ (render ts2 code langv).length
        (fixedLen_render code langv ts2 hnotin hcode5)]
      have harith : (langv ++ render ts2 code langv).length -
          (render ts2 code langv).length = langv.length := by
        simp
      rw [if_pos (by simp), harith, List.take_left, List.drop_left, if_pos hwa, hrec]
      simp [List.mem_cons, hnotin]

theorem matchToks_lang_cap_word :
    ∀ (ts : List Tok) (path : Str) (caps : Caps), matchToks ts path = some caps →
      ∀ v, caps.lang = some v → v.all isWordChar = true := by
  intro ts
  induction ts with
  | nil =>
    intro path caps hm v hv
    cases path with
    | nil =>
      simp only [matchToks, Option.some.injEq] at hm
      rw [← hm] at hv
      cases hv
    | cons x xs => simp [matchToks] at hm
  | cons t ts2 ih =>
    intro path caps hm v hv
    cases t with
    | chr c =>
      cases path with
      | nil => simp [matchToks] at hm
      | cons x xs =>
        rw [matchToks_chr] at hm
        by_cases he : c.toLower = x.toLower
        · rw [if_pos he] at hm
          exact ih xs caps hm v hv
        · rw [if_neg he] at hm
          cases hm
    | codeG =>
      rcases path with _ | ⟨a, _ | ⟨b, _ | ⟨c2, _ | ⟨d, _ | ⟨e, rest⟩⟩⟩⟩⟩
      · simp [matchToks] at hm
      · simp [matchToks] at hm
      · simp [matchToks] at hm
      · simp [matchToks] at hm
      · simp [matchToks] at hm
      · rw [matchToks_codeG] at hm
        by_cases hg : (isWordChar a && isWordChar b && (c2 == '-') && isWordChar d &&
            isWordChar e) = true
        · rw [if_pos hg] at hm
          rcases Option.map_eq_some'.mp hm with ⟨cp, hcp, hceq⟩
          rw [← hceq] at hv
          exact ih rest cp hcp v hv
        · rw [if_neg hg] at hm
          cases hm
    | langG =>
      cases hfl : fixedLen ts2 with
      | none =>
        rw [matchToks_langG_none ts2 path hfl] at hm
        cases hm
      | some n =>
        rw [matchToks_langG_some ts2 path n hfl] at hm
        by_cases h1 : n ≤ path.length
        · rw [if_pos h1] at hm
          by_cases h2 : (path.take (path.length - n)).all isWordChar = true
          · rw [if_pos h2] at hm
            rcases Option.map_eq_some'.mp hm with ⟨cp, hcp, hceq⟩
            rw [← hceq] at hv
            simp only at hv
            rw [Option.some.injEq] at hv
            rw [← hv]
            exact h2
          · rw [if_neg h2] at hm
            cases hm
        · rw [if_neg h1] at hm
          cases hm

theorem validate_push_pattern_ok (p : Str) (toks : List Tok)
    (h : validate_push_pattern p = Except.ok toks) :
    toks = compiledToks p ∧ (compiledToks p).count Tok.codeG ≤ 1 ∧
      (compiledToks p).count Tok.langG ≤ 1 ∧
      (containsSub p lcPat || containsSub p llcPat) = true := by
  unfold validate_push_pattern at h
  split at h
  · cases h
  · split at h
    · cases h
    · rename_i hc hd
      injection h with h2
      refine ⟨h2.symm, ?_, ?_, ?_⟩
      · by_contra hx
        exact hd (Or.inl (by omega))
      · by_contra hx
        exact hd (Or.inr (by omega))
      · cases hb : (containsSub p lcPat || containsSub p llcPat) with
        | false => exact absurd (by rw [hb]; rfl) hc
        | true => rfl

/-! C4 -/

/-- C4: an explicit (non-absent) pattern containing none of the five
language placeholders makes `create_target_path_by_pattern` fail with
`PatternNotValid` before producing any path. -/
theorem c4_pull_pattern_requires_placeholder (p : Str) (curdir : Str) (lang : Language)
    (src : Option Str) (reg : List Language)
    (h1 : containsSub p lcPat = false) (h2 : containsSub p lnPat = false)
    (h3 : containsSub p lncPat = false) (h4 : containsSub p lnaPat = false)
    (h5 : containsSub p llcPat = false) :
    create_target_path_by_pattern curdir lang (some p) src reg =
      Except.error TargetErr.patternNotValid := by
  have hp : pullOk p = false := by
    simp [pullOk, h1, h2, h3, h4, h5]
  simp [create_target_path_by_pattern, hp]

/-- Witness for C4: the empty pattern and the pattern made of only the
`<extension>` placeholder are both rejected. -/
theorem c4_pull_pattern_requires_placeholder_witness :
    create_target_path_by_pattern [] LANGUAGE_EN (some "<extension>".toList)
        (some "a.json".toList) [] = Except.error TargetErr.patternNotValid ∧
    create_target_path_by_pattern [] LANGUAGE_EN (some []) none [] =
      Except.error TargetErr.patternNotValid :=
  ⟨c4_pull_pattern_requires_placeholder "<extension>".toList [] LANGUAGE_EN
      (some "a.json".toList) [] (by decide) (by decide) (by decide) (by decide) (by decide),
    c4_pull_pattern_requires_placeholder [] [] LANGUAGE_EN none [] (by decide) (by decide)
      (by decide) (by decide) (by decide)⟩

/-! C5 -/

/-- C5 counterexample: a pattern that contains `<language_code>` (in
fact twice) does not return a compiled matcher: the regex compilation of
sources.py line 149 rejects the duplicated named group, so the claim
that the presence of a placeholder guarantees success is false. -/
theorem c5_counterexample :
    containsSub "<language_code>/<language_code>.json".toList lcPat = true ∧
    validate_push_pattern "<language_code>/<language_code>.json".toList =
      Except.error PatternErr.groupRedefinition := ⟨by decide, rfl⟩

/-- C5 amended: `validate_push_pattern` fails with `PatternNotValid` if
and only if the pattern contains neither `<language_code>` nor
`<language_lang_code>`; when at least one of the two is present and each
placeholder occurs at most once, it returns the compiled matcher; when
one occurs more than once, it fails with the group-redefinition error of
`re.compile`, not with `PatternNotValid`. -/
theorem c5_push_validation_boundary (p : Str) :
    (validate_push_pattern p = Except.error PatternErr.patternNotValid ↔
      containsSub p lcPat = false ∧ containsSub p llcPat = false) ∧
    ((containsSub p lcPat || containsSub p llcPat) = true →
      (compiledToks p).count Tok.codeG ≤ 1 → (compiledToks p).count Tok.langG ≤ 1 →
      validate_push_pattern p = Except.ok (compiledToks p)) ∧
    ((containsSub p lcPat || containsSub p llcPat) = true →
      2 ≤ (compiledToks p).count Tok.codeG ∨ 2 ≤ (compiledToks p).count Tok.langG →
      validate_push_pattern p = Except.error PatternErr.groupRedefinition) := by
  unfold validate_push_pattern
  cases hb : (containsSub p lcPat || containsSub p llcPat) with
  | false =>
    have hbb : containsSub p lcPat = false ∧ containsSub p llcPat = false := by
      constructor
      · cases hx : containsSub p lcPat with
        | false => rfl
        | true => rw [hx] at hb; simp at hb
      · cases hx : containsSub p llcPat with
        | false => rfl
        | true => rw [hx] at hb; simp at hb
    simp only [Bool.not_false]
    simp only [if_true]
    refine ⟨?_, ?_, ?_⟩
    · constructor
      · intro _
        exact hbb
      · intro _
        trivial
    · intro hcontra _ _
      cases hcontra
    · intro hcontra _
      cases hcontra
  | true =>
    simp only [Bool.not_true]
    simp only [Bool.false_eq_true, if_false]
    by_cases hd : 2 ≤ (compiledToks p).count Tok.codeG ∨ 2 ≤ (compiledToks p).count Tok.langG
    · rw [if_pos hd]
      refine ⟨⟨fun he => absurd he (by simp), fun hxy => ?_⟩, ?_, ?_⟩
      · rw [hxy.1, hxy.2] at hb
        simp at hb
      · intro _ hc1 hc2
        rcases hd with hd | hd
        · exact absurd hd (by omega)
        · exact absurd hd (by omega)
      · intro _ _
        rfl
    · rw [if_neg hd]
      push_neg at hd
      refine ⟨⟨fun he => absurd he (by simp), fun hxy => ?_⟩, ?_, ?_⟩
      · rw [hxy.1, hxy.2] at hb
        simp at hb
      · intro _ _ _
        rfl
      · intro _ hcontra
        rcases hcontra with hc | hc
        · exact absurd hc (by omega)
        · exact absurd hc (by omega)

/-- Witness for C5: a single-occurrence pattern compiles. -/
theorem c5_push_validation_boundary_witness :
    validate_push_pattern "i18n/<language_code>/translations.json".toList =
      Except.ok (compiledToks "i18n/<language_code>/translations.json".toList) :=
  (c5_push_validation_boundary "i18n/<language_code>/translations.json".toList).2.1
    (by decide) (by decide) (by decide)

/-! C2 -/

/-- C2 counterexample: the matcher compiled from the repository's own
push fixture matches the candidate path with an EMPTY token at the
`language_lang_code` position, capturing the empty string; the group is
`[\w]*`, zero or more, so the claim that such a path does not match is
false. -/
theorem c2_counterexample :
    validate_push_pattern "folder1/values-<language_lang_code>/strings.xml".toList =
      Except.ok (compiledToks "folder1/values-<language_lang_code>/strings.xml".toList) ∧
    matchToks (compiledToks "folder1/values-<language_lang_code>/strings.xml".toList)
      "folder1/values-/strings.xml".toList = some ⟨none, some []⟩ := ⟨rfl, by decide⟩

/-- C2 amended: the `<language_lang_code>` placeholder is replaced by a
named capturing group matching ZERO or more word characters, so for
every pattern accepted by validate_push_pattern that contains it —
including patterns that also contain `<language_code>`, whose group is
filled by any locale-shaped code — the candidate path with an empty
token at the `<language_lang_code>` position does match, the group
capturing the empty string; every value the group captures consists of
word characters only. -/
theorem c2_lang_code_group_zero_or_more (p : Str) (toks : List Tok) (code : Str)
    (hok : validate_push_pattern p = Except.ok toks)
    (hlang : Tok.langG ∈ toks)
    (hcode : Tok.codeG ∈ toks → isLocaleCode code = true) :
    matchToks toks (render toks code []) =
      some ⟨if Tok.codeG ∈ toks then some code else none, some []⟩ ∧
    (∀ (path : Str) (caps : Caps) (v : Str), matchToks toks path = some caps →
      caps.lang = some v → v.all isWordChar = true) := by
  obtain ⟨htoks, hc1, hc2, _⟩ := validate_push_pattern_ok p toks hok
  subst htoks
  constructor
  · have hrt := matchToks_render code [] (compiledToks p) hc1 hc2 hcode (fun _ => rfl)
    rw [hrt, if_pos hlang]
  · intro path caps v hm hv
    exact matchToks_lang_cap_word (compiledToks p) path caps hm v hv

/-- Witness for C2 at a pattern containing BOTH push placeholders: the
empty token at the `<language_lang_code>` position matches while the
`<language_code>` slot carries a concrete locale code. -/
theorem c2_lang_code_group_zero_or_more_witness :
    matchToks (compiledToks "i18n/<language_code>/values-<language_lang_code>/strings.xml".toList)
      (render (compiledToks "i18n/<language_code>/values-<language_lang_code>/strings.xml".toList)
        "zh-cn".toList []) = some ⟨some "zh-cn".toList, some []⟩ := by
  have h := (c2_lang_code_group_zero_or_more
    "i18n/<language_code>/values-<language_lang_code>/strings.xml".toList
    (compiledToks "i18n/<language_code>/values-<language_lang_code>/strings.xml".toList)
    "zh-cn".toList rfl (by decide) (fun _ => by decide)).1
  rw [if_pos (by decide :
    Tok.codeG ∈ compiledToks "i18n/<language_code>/values-<language_lang_code>/strings.xml".toList)]
    at h
  exact h

theorem containsSub_append_false (w x pat : Str) (h : Char) (t : Str)
    (hpat : pat = h :: t) (hw : h ∉ w) (hx : containsSub x pat = false) :
    containsSub (w ++ x) pat = false := by
  induction w with
  | nil => exact hx
  | cons a w2 ih =>
    have ha : ¬ h = a := fun he => hw (he ▸ List.mem_cons_self a w2)
    have hw2 : h ∉ w2 := fun he => hw (List.mem_cons_of_mem a he)
    rw [List.cons_append]
    simp only [containsSub, Bool.or_eq_false_iff]
    exact ⟨isPrefixOf_cons_false_of_head pat h t a (w2 ++ x) hpat ha, ih hw2⟩

theorem compsGo_no_slash (x : Str) (hs : '/' ∉ x) :
    ∀ cur, compsGo cur x = [cur.reverse ++ x] := by
  induction x with
  | nil =>
    intro cur
    simp [compsGo]
  | cons c rest ih =>
    intro cur
    have hc : ¬ c = '/' := fun he => hs (he ▸ List.mem_cons_self c rest)
    have hrest : '/' ∉ rest := fun he => hs (List.mem_cons_of_mem c he)
    simp only [compsGo, if_neg hc]
    rw [ih hrest (c :: cur)]
    simp

theorem comps_single (x : Str) (hs : '/' ∉ x) (hx : x ≠ []) : comps x = [x] := by
  unfold comps
  rw [compsGo_no_slash x hs []]
  have hie : x.isEmpty = false := by
    cases x with
    | nil => exact absurd rfl hx
    | cons a b => rfl
  simp [List.filter, hie]

theorem os_relpath_single (x : Str) (hx : x ≠ []) (hs : '/' ∉ x) (h1 : x ≠ ['.'])
    (h2 : x ≠ ['.', '.']) : os_relpath x [] = x := by
  have hcx : comps x = [x] := comps_single x hs hx
  have hnx : normRel [x] = [x] := by
    simp only [normRel, List.foldl_cons, List.foldl_nil, normRelStep, if_neg h1, if_neg h2]
    rfl
  have hc0 : comps [] = [] := rfl
  have hn0 : normRel [] = [] := rfl
  have hjx : joinComps [x] = x := by
    simp [joinComps, List.intercalate]
  simp only [os_relpath, hcx, hnx, hc0, hn0]
  simp only [commonLen, List.length_nil, Nat.zero_sub, List.replicate_zero, List.drop_zero,
    List.nil_append]
  rw [if_neg (by simp [hx])]
  exact hjx

theorem no_slash_afterLastSep (s : Str) : '/' ∉ afterLastSep s := by
  unfold afterLastSep
  intro hm
  rw [List.mem_reverse] at hm
  have := List.mem_takeWhile_imp hm
  simp at this

theorem extOfBase_chars (base : Str) (c : Char) (hm : c ∈ extOfBase base) :
    c = '.' ∨ c ∈ base := by
  simp only [extOfBase] at hm
  split at hm
  · cases hm
  · rcases List.mem_cons.mp hm with he | he
    · exact Or.inl he
    · right
      rw [List.mem_reverse] at he
      have h4 := (List.takeWhile_prefix _).subset he
      rw [List.mem_reverse] at h4
      exact (List.dropWhile_suffix _).subset h4

theorem no_slash_splitextExt (src : Option Str) : '/' ∉ splitextExt src := by
  cases src with
  | none => simp [splitextExt]
  | some s =>
    intro hm
    simp only [splitextExt] at hm
    rcases extOfBase_chars (afterLastSep s) '/' hm with he | he
    · exact absurd he (by decide)
    · exact no_slash_afterLastSep s he

theorem create_some_eq (curdir : Str) (p : Str) (lang : Language) (src : Option Str)
    (reg : List Language) (hp : pullOk p = true) (hne : p.isEmpty = false) :
    create_target_path_by_pattern curdir lang (some p) src reg =
      Except.ok ⟨os_relpath (targetString p lang src) curdir, lang, curdir⟩ := by
  simp [create_target_path_by_pattern, hp, hne, validate_path, normalize_language]

theorem create_none_eq (curdir : Str) (lang : Language) (src : Option Str)
    (reg : List Language) :
    create_target_path_by_pattern curdir lang none src reg =
      Except.ok ⟨os_relpath (targetString DEFAULT_PATTERN lang src) curdir, lang, curdir⟩ := by
  simp [create_target_path_by_pattern, validate_path, normalize_language]

theorem targetString_default (lang : Language) (src : Option Str)
    (hcode : isLocaleCode lang.code = true) :
    targetString DEFAULT_PATTERN lang src = lang.code ++ splitextExt src := by
  have hlt : '<' ∉ lang.code := locale_no_lt lang.code hcode
  have h1 : replaceAll DEFAULT_PATTERN lcPat lang.code = lang.code ++ extPat := by
    rw [show DEFAULT_PATTERN = lcPat ++ extPat from rfl]
    rw [replaceAll_posG lcPat lang.code (lcPat ++ extPat) (by decide)
      (List.isPrefixOf_iff_prefix.mpr (List.prefix_append lcPat extPat))]
    rw [List.drop_left]
    rw [replaceAll_of_not_contains extPat lcPat lang.code (by decide) (by decide)]
  have h2 : substituted DEFAULT_PATTERN lang = lang.code ++ extPat := by
    show replaceAll (replaceAll (replaceAll
      (replaceAll (replaceAll DEFAULT_PATTERN lcPat lang.code) llcPat lang.lang)
      lnPat lang.name) lncPat (pyCapitalize lang.name)) lnaPat (pyUpper lang.name) = _
    rw [h1]
    rw [replaceAll_of_not_contains _ llcPat lang.lang (by decide)
      (containsSub_append_false lang.code extPat llcPat '<' "language_lang_code>".toList
        (by decide) hlt (by decide))]
    rw [replaceAll_of_not_contains _ lnPat lang.name (by decide)
      (containsSub_append_false lang.code extPat lnPat '<' "language_name>".toList
        (by decide) hlt (by decide))]
    rw [replaceAll_of_not_contains _ lncPat (pyCapitalize lang.name) (by decide)
      (containsSub_append_false lang.code extPat lncPat '<' "language_name_cap>".toList
        (by decide) hlt (by decide))]
    rw [replaceAll_of_not_contains _ lnaPat (pyUpper lang.name) (by decide)
      (containsSub_append_false lang.code extPat lnaPat '<' "language_name_allcap>".toList
        (by decide) hlt (by decide))]
  show (if extPat.isSuffixOf (substituted DEFAULT_PATTERN lang) = true then
      replaceAll (substituted DEFAULT_PATTERN lang) extPat (splitextExt src)
    else substituted DEFAULT_PATTERN lang) = _
  rw [h2]
  rw [if_pos (List.isSuffixOf_iff_suffix.mpr (List.suffix_append lang.code extPat))]
  rw [replaceAll_passthrough lang.code extPat extPat (splitextExt src) '<'
    "extension>".toList (by decide) hlt]
  rw [replaceAll_posG extPat (splitextExt src) extPat (by decide)
    (List.isPrefixOf_iff_prefix.mpr List.prefix_rfl)]
  rw [List.drop_length, replaceAll_nil, List.append_nil]

theorem normalize_code_facet (reg : List Language) (lang : Language) (hreg : lang ∈ reg)
    (hregc : ∀ l2 ∈ reg, l2.lang ≠ lang.code ∧ l2.name ≠ lang.code) :
    ∃ l2, normalize_language reg (Sum.inl lang.code) = Except.ok l2 ∧ l2.code = lang.code := by
  unfold normalize_language
  have hex : ∃ l2, l2 ∈ reg ∧
      (fun l => l.code == lang.code || l.lang == lang.code || l.name == lang.code) l2 = true :=
    ⟨lang, hreg, by simp⟩
  obtain ⟨l0, hl0⟩ := Option.isSome_iff_exists.mp (List.find?_isSome.mpr hex)
  have heq : (match List.find?
      (fun l => l.code == lang.code || l.lang == lang.code || l.name == lang.code) reg with
    | some l => Except.ok l
    | none => Except.error LangErr.languageNotFound) = Except.ok l0 := by
    rw [hl0]
  have hp := List.find?_some hl0
  have hmem := List.mem_of_find?_eq_some hl0
  simp only [Bool.or_eq_true, beq_iff_eq] at hp
  rcases hp with (hc | hc) | hc
  · exact ⟨l0, heq, hc⟩
  · exact absurd hc (hregc l0 hmem).1
  · exact absurd hc (hregc l0 hmem).2

theorem normalize_lang_facet (reg : List Language) (lang : Language) (hreg : lang ∈ reg)
    (hregl : ∀ l2 ∈ reg, l2.code ≠ lang.lang ∧ l2.name ≠ lang.lang) :
    ∃ l2, normalize_language reg (Sum.inl lang.lang) = Except.ok l2 ∧ l2.lang = lang.lang := by
  unfold normalize_language
  have hex : ∃ l2, l2 ∈ reg ∧
      (fun l => l.code == lang.lang || l.lang == lang.lang || l.name == lang.lang) l2 = true :=
    ⟨lang, hreg, by simp⟩
  obtain ⟨l0, hl0⟩ := Option.isSome_iff_exists.mp (List.find?_isSome.mpr hex)
  have heq : (match List.find?
      (fun l => l.code == lang.lang || l.lang == lang.lang || l.name == lang.lang) reg with
    | some l => Except.ok l
    | none => Except.error LangErr.languageNotFound) = Except.ok l0 := by
    rw [hl0]
  have hp := List.find?_some hl0
  have hmem := List.mem_of_find?_eq_some hl0
  simp only [Bool.or_eq_true, beq_iff_eq] at hp
  rcases hp with (hc | hc) | hc
  · exact absurd hc (hregl l0 hmem).1
  · exact ⟨l0, heq, hc⟩
  · exact absurd hc (hregl l0 hmem).2

/-! C6 -/

/-- C6 counterexample: with the default pattern and source name
`file.txt`, the generated path is `en-us.txt`, because the substituted
extension is the `os.path.splitext` tail INCLUDING the leading dot; the
claim's reading, the code immediately followed by the substring after
the last dot, would give `en-ustxt`. -/
theorem c6_counterexample :
    create_target_path_by_pattern [] LANGUAGE_EN none (some "file.txt".toList) [] =
      Except.ok ⟨"en-us.txt".toList, LANGUAGE_EN, []⟩ ∧
    "en-us.txt".toList ≠ "en-us".toList ++ "txt".toList := ⟨rfl, by decide⟩

/-- C6 amended: with pattern absent the default pattern
`<language_code><extension>` governs and the generated relative path is
`lang.code` immediately followed by the `os.path.splitext` extension of
the source name, which INCLUDES its leading dot (and is empty when the
source name is absent or its basename has no usable dot); in general
`<extension>` is substituted only when the substituted path ends with
the literal `<extension>`, and otherwise the path is left as
produced. -/
theorem c6_default_pattern_generation (lang : Language) (src : Option Str)
    (reg : List Language) (hcode : isLocaleCode lang.code = true) :
    create_target_path_by_pattern [] lang none src reg =
      Except.ok ⟨lang.code ++ splitextExt src, lang, []⟩ ∧
    (∀ (p : Str) (l2 : Language) (s : Option Str),
      (extPat.isSuffixOf (substituted p l2) = false →
        targetString p l2 s = substituted p l2) ∧
      (extPat.isSuffixOf (substituted p l2) = true →
        targetString p l2 s = replaceAll (substituted p l2) extPat (splitextExt s))) := by
  constructor
  · obtain ⟨c0, c1, c3, c4, hcc, h0, h1, h3, h4⟩ := locale_shape lang.code hcode
    have hx : lang.code ++ splitextExt src ≠ [] := by
      rw [hcc]
      simp
    have hs : '/' ∉ lang.code ++ splitextExt src := by
      intro hm
      rcases List.mem_append.mp hm with hm2 | hm2
      · rw [hcc] at hm2
        rcases List.mem_cons.mp hm2 with he | he
        · exact (wordChar_not_special c0 h0).2.2.2.2 he.symm
        · rcases List.mem_cons.mp he with he2 | he2
          · exact (wordChar_not_special c1 h1).2.2.2.2 he2.symm
          · rcases List.mem_cons.mp he2 with he3 | he3
            · exact absurd he3 (by decide)
            · rcases List.mem_cons.mp he3 with he4 | he4
              · exact (wordChar_not_special c3 h3).2.2.2.2 he4.symm
              · rcases List.mem_cons.mp he4 with he5 | he5
                · exact (wordChar_not_special c4 h4).2.2.2.2 he5.symm
                · cases he5
      · exact no_slash_splitextExt src hm2
    have hlong : 5 ≤ (lang.code ++ splitextExt src).length := by
      rw [hcc]
      simp
    have h1d : lang.code ++ splitextExt src ≠ ['.'] := by
      intro he
      rw [he] at hlong
      simp at hlong
    have h2d : lang.code ++ splitextExt src ≠ ['.', '.'] := by
      intro he
      rw [he] at hlong
      simp at hlong
    rw [create_none_eq [] lang src reg, targetString_default lang src hcode,
      os_relpath_single (lang.code ++ splitextExt src) hx hs h1d h2d]
  · intro p l2 s
    constructor
    · intro hfalse
      show (if extPat.isSuffixOf (substituted p l2) = true then
          replaceAll (substituted p l2) extPat (splitextExt s)
        else substituted p l2) = _
      rw [hfalse]
      simp
    · intro htrue
      show (if extPat.isSuffixOf (substituted p l2) = true then
          replaceAll (substituted p l2) extPat (splitextExt s)
        else substituted p l2) = _
      rw [htrue]
      simp

/-- Witness for C6 at the English fixture language with a source name
carrying an extension and with an absent source name. -/
theorem c6_default_pattern_generation_witness :
    create_target_path_by_pattern [] LANGUAGE_EN none (some "strings.json".toList) [] =
      Except.ok ⟨"en-us".toList ++ splitextExt (some "strings.json".toList), LANGUAGE_EN, []⟩ ∧
    create_target_path_by_pattern [] LANGUAGE_EN none none [] =
      Except.ok ⟨"en-us".toList ++ splitextExt none, LANGUAGE_EN, []⟩ :=
  ⟨(c6_default_pattern_generation LANGUAGE_EN (some "strings.json".toList) [] (by decide)).1,
    (c6_default_pattern_generation LANGUAGE_EN none [] (by decide)).1⟩

/-! C1 -/

/-- C1 counterexample: the pattern `./i18n/<language_code>/translations.json`
is a valid push pattern, but `os.path.relpath` normalises the leading
`./` away from the generated path, so the anchored matcher, which
expects the literal `./`, does not match the generated relative path:
generation followed by matching fails for this valid pattern. -/
theorem c1_counterexample :
    validate_push_pattern "./i18n/<language_code>/translations.json".toList =
      Except.ok (compiledToks "./i18n/<language_code>/translations.json".toList) ∧
    create_target_path_by_pattern [] LANGUAGE_CN
        (some "./i18n/<language_code>/translations.json".toList) none [] =
      Except.ok ⟨"i18n/zh-cn/translations.json".toList, LANGUAGE_CN, []⟩ ∧
    matchToks (compiledToks "./i18n/<language_code>/translations.json".toList)
      "i18n/zh-cn/translations.json".toList = none := ⟨rfl, rfl, by decide⟩

/-- C1 amended: for every valid push pattern whose only angle-bracket
text is the two push placeholders and whose generated path is already
relpath-normalised, generation at a locale-shaped language followed by
matching succeeds, the `language_code` group captures exactly
`lang.code` and the `language_lang_code` group captures exactly
`lang.lang`, and each captured value normalises against a
well-separated registry containing the language to a language agreeing
with `lang` on the captured facet. -/
theorem c1_push_roundtrip_normalized (p : Str) (toks : List Tok) (lang : Language)
    (reg : List Language) (src : Option Str)
    (hok : validate_push_pattern p = Except.ok toks)
    (hlt : Tok.chr '<' ∉ toks)
    (hcode : isLocaleCode lang.code = true)
    (hnorm : os_relpath (render toks lang.code lang.lang) [] =
      render toks lang.code lang.lang)
    (hreg : lang ∈ reg)
    (hregc : ∀ l2 ∈ reg, l2.lang ≠ lang.code ∧ l2.name ≠ lang.code)
    (hregl : ∀ l2 ∈ reg, l2.code ≠ lang.lang ∧ l2.name ≠ lang.lang) :
    create_target_path_by_pattern [] lang (some p) src reg =
      Except.ok ⟨render toks lang.code lang.lang, lang, []⟩ ∧
    matchToks toks (render toks lang.code lang.lang) =
      some ⟨if Tok.codeG ∈ toks then some lang.code else none,
            if Tok.langG ∈ toks then some lang.lang else none⟩ ∧
    (Tok.codeG ∈ toks →
      ∃ l2, normalize_language reg (Sum.inl lang.code) = Except.ok l2 ∧
        l2.code = lang.code) ∧
    (Tok.langG ∈ toks →
      ∃ l2, normalize_language reg (Sum.inl lang.lang) = Except.ok l2 ∧
        l2.lang = lang.lang) := by
  obtain ⟨htoks, hc1, hc2, hcont⟩ := validate_push_pattern_ok p toks hok
  subst htoks
  have hpull : pullOk p = true := by
    unfold pullOk
    cases ha : containsSub p lcPat with
    | true => simp [ha]
    | false =>
      rw [ha] at hcont
      simp only [Bool.false_or] at hcont
      simp [hcont]
  have hne : p.isEmpty = false := by
    cases p with
    | nil =>
      rw [show containsSub [] lcPat = false from rfl,
        show containsSub [] llcPat = false from rfl] at hcont
      cases hcont
    | cons a b => rfl
  obtain ⟨c0, c1, hlng, hw0, hw1⟩ := lang_of_locale lang.code hcode
  have hlangw : lang.lang.all isWordChar = true := by
    rw [show lang.lang = [c0, c1] from hlng]
    simp [hw0, hw1]
  refine ⟨?_, ?_, ?_, ?_⟩
  · rw [create_some_eq [] p lang src reg hpull hne,
      targetString_eq_render p lang src hlt hcode, hnorm]
  · exact matchToks_render lang.code lang.lang (compiledToks p) hc1 hc2 (fun _ => hcode)
      (fun _ => hlangw)
  · intro _
    exact normalize_code_facet reg lang hreg hregc
  · intro _
    exact normalize_lang_facet reg lang hreg hregl

/-- Witness for C1 at the repository's first fixture pattern, the
Chinese fixture language and a one-language registry. -/
theorem c1_push_roundtrip_normalized_witness :
    create_target_path_by_pattern [] LANGUAGE_CN
        (some "i18n/<language_code>/translations.json".toList) none [LANGUAGE_CN] =
      Except.ok ⟨render (compiledToks "i18n/<language_code>/translations.json".toList)
        LANGUAGE_CN.code LANGUAGE_CN.lang, LANGUAGE_CN, []⟩ ∧
    matchToks (compiledToks "i18n/<language_code>/translations.json".toList)
      (render (compiledToks "i18n/<language_code>/translations.json".toList)
        LANGUAGE_CN.code LANGUAGE_CN.lang) =
      some ⟨if Tok.codeG ∈ compiledToks "i18n/<language_code>/translations.json".toList then
              some LANGUAGE_CN.code else none,
            if Tok.langG ∈ compiledToks "i18n/<language_code>/translations.json".toList then
              some LANGUAGE_CN.lang else none⟩ ∧
    (Tok.codeG ∈ compiledToks "i18n/<language_code>/translations.json".toList →
      ∃ l2, normalize_language [LANGUAGE_CN] (Sum.inl LANGUAGE_CN.code) = Except.ok l2 ∧
        l2.code = LANGUAGE_CN.code) ∧
    (Tok.langG ∈ compiledToks "i18n/<language_code>/translations.json".toList →
      ∃ l2, normalize_language [LANGUAGE_CN] (Sum.inl LANGUAGE_CN.lang) = Except.ok l2 ∧
        l2.lang = LANGUAGE_CN.lang) :=
  c1_push_roundtrip_normalized "i18n/<language_code>/translations.json".toList
    (compiledToks "i18n/<language_code>/translations.json".toList) LANGUAGE_CN [LANGUAGE_CN]
    none rfl (by decide) (by decide) (by decide) (by decide) (by decide) (by decide)

/-! C3 -/

/-- C3 counterexample: a path that matches the compiled pattern but
whose captured token normalises against an empty registry fails is NOT
skipped: `find_files_by_pattern` still yields it, as the raw path
string (the `yield path` of sources.py line 238 sits outside the `try`),
so the output is nonempty where the claim requires the file to be
dropped. -/
theorem c3_counterexample :
    find_files_by_pattern [] (compiledToks "i18n/<language_code>/x.json".toList) []
        ["i18n/qq-qq/x.json".toList] = [Sum.inl "i18n/qq-qq/x.json".toList] ∧
    find_files_by_pattern [] (compiledToks "i18n/<language_code>/x.json".toList) []
        ["i18n/qq-qq/x.json".toList] ≠ ([] : List (Sum Str TranslationFile)) :=
  ⟨rfl, by decide⟩

theorem find_files_append (curpath : Str) (toks : List Tok) (reg : List Language)
    (a b : List Str) :
    find_files_by_pattern curpath toks reg (a ++ b) =
      find_files_by_pattern curpath toks reg a ++ find_files_by_pattern curpath toks reg b := by
  simp [find_files_by_pattern, List.filterMap_append]

/-- C3 amended: when a candidate path matches the compiled matcher but
every captured language token fails normalisation, the failure is
logged and the file is STILL yielded — as the raw relative path string
with no language attached, not as a `TranslationFile` under a language —
and the walk continues over the surrounding files. -/
theorem c3_failed_normalization_yields_raw (curpath : Str) (toks : List Tok)
    (reg : List Language) (before after : List Str) (path : Str) (caps : Caps)
    (hm : matchToks toks path = some caps)
    (hc : ∀ v, caps.code = some v →
      normalize_language reg (Sum.inl v) = Except.error LangErr.languageNotFound)
    (hl : ∀ v, caps.lang = some v →
      normalize_language reg (Sum.inl v) = Except.error LangErr.languageNotFound)
    (hempty : normalize_language reg (Sum.inl []) = Except.error LangErr.languageNotFound) :
    find_files_by_pattern curpath toks reg (before ++ path :: after) =
      find_files_by_pattern curpath toks reg before ++
        Sum.inl path :: find_files_by_pattern curpath toks reg after := by
  obtain ⟨cc, cl⟩ := caps
  have htry : tryNormalizeCaps reg ⟨cc, cl⟩ = Sum.inl [] := by
    cases cc with
    | some v =>
      have hcv := hc v rfl
      cases cl with
      | some w =>
        have hlw := hl w rfl
        simp [tryNormalizeCaps, hcv, hlw]
      | none => simp [tryNormalizeCaps, hcv]
    | none =>
      cases cl with
      | some w =>
        have hlw := hl w rfl
        simp [tryNormalizeCaps, hlw]
      | none => simp [tryNormalizeCaps]
  have hone : find_files_by_pattern curpath toks reg [path] = [Sum.inl path] := by
    simp only [find_files_by_pattern, List.filterMap_cons, List.filterMap_nil, hm, htry,
      validate_path, hempty]
  rw [show before ++ path :: after = before ++ [path] ++ after by simp]
  rw [find_files_append, find_files_append, hone]
  simp

/-- Witness for C3 at a concrete pattern, an unknown locale token and an
empty registry, with a further file after the failing one. -/
theorem c3_failed_normalization_yields_raw_witness :
    find_files_by_pattern [] (compiledToks "i18n/<language_code>/x.json".toList) []
        ([] ++ "i18n/qq-qq/x.json".toList :: ["other.txt".toList]) =
      find_files_by_pattern [] (compiledToks "i18n/<language_code>/x.json".toList) [] [] ++
        Sum.inl "i18n/qq-qq/x.json".toList ::
          find_files_by_pattern [] (compiledToks "i18n/<language_code>/x.json".toList) []
            ["other.txt".toList] :=
  c3_failed_normalization_yields_raw [] (compiledToks "i18n/<language_code>/x.json".toList)
    [] [] ["other.txt".toList] "i18n/qq-qq/x.json".toList
    ⟨some "qq-qq".toList, none⟩ (by decide)
    (fun v hv => by cases hv; rfl)
    (fun v hv => by cases hv)
    rfl

/-! Machinery for the directory walk. -/

theorem walkAux_zero (fs : FS) (d : Nat) (vis : List Nat) :
    walkAux fs 0 d vis = ([], vis) := by
  rw [walkAux]

theorem walkAux_succ_mem (fs : FS) (fuel d : Nat) (vis : List Nat) (h : d ∈ vis) :
    walkAux fs (fuel + 1) d vis = ([], vis) := by
  rw [walkAux, if_pos h]

theorem walkAux_succ_not (fs : FS) (fuel d : Nat) (vis : List Nat) (h : d ∉ vis) :
    walkAux fs (fuel + 1) d vis =
      ((fs.files d).map (fun f => (d, f)) ++
        (walkChildren fs fuel
          ((fs.entries d).filter (fun c => decide (c ∉ d :: vis))) (d :: vis)).1,
       (walkChildren fs fuel
          ((fs.entries d).filter (fun c => decide (c ∉ d :: vis))) (d :: vis)).2) := by
  rw [walkAux, if_neg h]

theorem walkChildren_nil (fs : FS) (fuel : Nat) (vis : List Nat) :
    walkChildren fs fuel [] vis = ([], vis) := by
  rw [walkChildren]

theorem walkChildren_cons (fs : FS) (fuel c : Nat) (cs : List Nat) (vis : List Nat) :
    walkChildren fs fuel (c :: cs) vis =
      ((walkAux fs fuel c vis).1 ++
        (walkChildren fs fuel cs (walkAux fs fuel c vis).2).1,
       (walkChildren fs fuel cs (walkAux fs fuel c vis).2).2) := by
  rw [walkChildren]

theorem walk_suffix (fs : FS) :
    ∀ fuel, (∀ d vis, vis <:+ (walkAux fs fuel d vis).2) ∧
      (∀ cs vis, cs.length = cs.length → vis <:+ (walkChildren fs fuel cs vis).2) := by
  intro fuel
  induction fuel with
  | zero =>
    have hA : ∀ d vis, vis <:+ (walkAux fs 0 d vis).2 := by
      intro d vis
      rw [walkAux_zero]
    refine ⟨hA, ?_⟩
    intro cs
    induction cs with
    | nil =>
      intro vis _
      rw [walkChildren_nil]
    | cons c cs2 ihc =>
      intro vis _
      rw [walkChildren_cons]
      exact (hA c vis).trans (ihc _ rfl)
  | succ g ih =>
    have hA : ∀ d vis, vis <:+ (walkAux fs (g + 1) d vis).2 := by
      intro d vis
      by_cases hd : d ∈ vis
      · rw [walkAux_succ_mem fs g d vis hd]
      · rw [walkAux_succ_not fs g d vis hd]
        exact (List.suffix_cons d vis).trans (ih.2 _ _ rfl)
    refine ⟨hA, ?_⟩
    intro cs
    induction cs with
    | nil =>
      intro vis _
      rw [walkChildren_nil]
    | cons c cs2 ihc =>
      intro vis _
      rw [walkChildren_cons]
      exact (hA c vis).trans (ihc _ rfl)

theorem walkAux_suffix (fs : FS) (fuel d : Nat) (vis : List Nat) :
    vis <:+ (walkAux fs fuel d vis).2 := (walk_suffix fs fuel).1 d vis

theorem walkChildren_suffix (fs : FS) (fuel : Nat) (cs : List Nat) (vis : List Nat) :
    vis <:+ (walkChildren fs fuel cs vis).2 := (walk_suffix fs fuel).2 cs vis rfl

theorem walk_visOk (fs : FS) (hgood : FS.Good fs) :
    ∀ fuel, (∀ d vis, d < fs.nDirs → VisOk fs vis → VisOk fs (walkAux fs fuel d vis).2) ∧
      (∀ cs vis, (∀ c ∈ cs, c < fs.nDirs) → VisOk fs vis →
        VisOk fs (walkChildren fs fuel cs vis).2) := by
  intro fuel
  induction fuel with
  | zero =>
    have hA : ∀ d vis, d < fs.nDirs → VisOk fs vis → VisOk fs (walkAux fs 0 d vis).2 := by
      intro d vis _ hv
      rw [walkAux_zero]
      exact hv
    refine ⟨hA, ?_⟩
    intro cs
    induction cs with
    | nil =>
      intro vis _ hv
      rw [walkChildren_nil]
      exact hv
    | cons c cs2 ihc =>
      intro vis hcs hv
      rw [walkChildren_cons]
      exact ihc _ (fun x hx => hcs x (List.mem_cons_of_mem c hx))
        (hA c vis (hcs c (List.mem_cons_self c cs2)) hv)
  | succ g ih =>
    have hA : ∀ d vis, d < fs.nDirs → VisOk fs vis →
        VisOk fs (walkAux fs (g + 1) d vis).2 := by
      intro d vis hd hv
      by_cases hdm : d ∈ vis
      · rw [walkAux_succ_mem fs g d vis hdm]
        exact hv
      · rw [walkAux_succ_not fs g d vis hdm]
        have hv1 : VisOk fs (d :: vis) := by
          refine ⟨List.nodup_cons.mpr ⟨hdm, hv.1⟩, ?_⟩
          intro x hx
          rcases List.mem_cons.mp hx with he | he
          · exact he ▸ hd
          · exact hv.2 x he
        refine ih.2 _ _ ?_ hv1
        intro c hc
        exact hgood d c (List.mem_of_mem_filter hc)
    refine ⟨hA, ?_⟩
    intro cs
    induction cs with
    | nil =>
      intro vis _ hv
      rw [walkChildren_nil]
      exact hv
    | cons c cs2 ihc =>
      intro vis hcs hv
      rw [walkChildren_cons]
      exact ihc _ (fun x hx => hcs x (List.mem_cons_of_mem c hx))
        (hA c vis (hcs c (List.mem_cons_self c cs2)) hv)

theorem nodup_lt_length_le (l : List Nat) (n : Nat) (hnd : l.Nodup)
    (hlt : ∀ x ∈ l, x < n) : l.length ≤ n := by
  have h1 : l.toFinset ⊆ Finset.range n := by
    intro x hx
    exact Finset.mem_range.mpr (hlt x (List.mem_toFinset.mp hx))
  have h2 := Finset.card_le_card h1
  rw [List.toFinset_card_of_nodup hnd, Finset.card_range] at h2
  exact h2

theorem fuelOk_pos (fs : FS) (f : Nat) (vis : List Nat) (hv : VisOk fs vis)
    (hf : FuelOk fs f vis) : 1 ≤ f := by
  have := nodup_lt_length_le vis fs.nDirs hv.1 hv.2
  unfold FuelOk at hf
  omega

theorem visOk_cons (fs : FS) (d : Nat) (vis : List Nat) (hv : VisOk fs vis)
    (hd : d < fs.nDirs) (hdm : d ∉ vis) : VisOk fs (d :: vis) := by
  refine ⟨List.nodup_cons.mpr ⟨hdm, hv.1⟩, ?_⟩
  intro x hx
  rcases List.mem_cons.mp hx with he | he
  · exact he ▸ hd
  · exact hv.2 x he

theorem fuelOk_mono (fs : FS) (f : Nat) (vis vis2 : List Nat) (h : vis <:+ vis2)
    (hf : FuelOk fs f vis) : FuelOk fs f vis2 := by
  unfold FuelOk at *
  have := h.length_le
  omega

theorem fuelOk_step (fs : FS) (g : Nat) (d : Nat) (vis : List Nat)
    (hf : FuelOk fs (g + 1) vis) : FuelOk fs g (d :: vis) := by
  unfold FuelOk at *
  simp only [List.length_cons]
  omega

theorem walkAux_self_mem (fs : FS) (fuel d : Nat) (vis : List Nat) (hf : 1 ≤ fuel) :
    d ∈ (walkAux fs fuel d vis).2 := by
  obtain ⟨g, rfl⟩ : ∃ g, fuel = g + 1 := ⟨fuel - 1, by omega⟩
  by_cases hdm : d ∈ vis
  · rw [walkAux_succ_mem _ _ _ _ hdm]
    exact hdm
  · rw [walkAux_succ_not _ _ _ _ hdm]
    exact (walkChildren_suffix fs g _ (d :: vis)).subset (List.mem_cons_self d vis)

theorem walk_fuel_stable (fs : FS) (hgood : FS.Good fs) :
    ∀ f1, (∀ f2 d vis, d < fs.nDirs → VisOk fs vis → FuelOk fs f1 vis → FuelOk fs f2 vis →
        walkAux fs f1 d vis = walkAux fs f2 d vis) ∧
      (∀ f2 cs vis, (∀ c ∈ cs, c < fs.nDirs) → VisOk fs vis → FuelOk fs f1 vis →
        FuelOk fs f2 vis → walkChildren fs f1 cs vis = walkChildren fs f2 cs vis) := by
  intro f1
  induction f1 using Nat.strong_induction_on with
  | _ f1 ih =>
    have hA : ∀ f2 d vis, d < fs.nDirs → VisOk fs vis → FuelOk fs f1 vis → FuelOk fs f2 vis →
        walkAux fs f1 d vis = walkAux fs f2 d vis := by
      intro f2 d vis hd hv h1 h2
      obtain ⟨g1, rfl⟩ : ∃ g, f1 = g + 1 :=
        ⟨f1 - 1, by have := fuelOk_pos fs f1 vis hv h1; omega⟩
      obtain ⟨g2, rfl⟩ : ∃ g, f2 = g + 1 :=
        ⟨f2 - 1, by have := fuelOk_pos fs f2 vis hv h2; omega⟩
      by_cases hdm : d ∈ vis
      · rw [walkAux_succ_mem _ _ _ _ hdm, walkAux_succ_mem _ _ _ _ hdm]
      · rw [walkAux_succ_not _ _ _ _ hdm, walkAux_succ_not _ _ _ _ hdm]
        have hv1 : VisOk fs (d :: vis) := visOk_cons fs d vis hv hd hdm
        have hcs : ∀ c ∈ (fs.entries d).filter (fun c => decide (c ∉ d :: vis)),
            c < fs.nDirs := fun c hc => hgood d c (List.mem_of_mem_filter hc)
        rw [(ih g1 (by omega)).2 g2 _ (d :: vis) hcs hv1
          (fuelOk_step fs g1 d vis h1) (fuelOk_step fs g2 d vis h2)]
    refine ⟨hA, ?_⟩
    intro f2 cs
    induction cs with
    | nil =>
      intro vis _ _ _ _
      rw [walkChildren_nil, walkChildren_nil]
    | cons c cs2 ihc =>
      intro vis hcs hv h1 h2
      rw [walkChildren_cons, walkChildren_cons]
      have hstep := hA f2 c vis (hcs c (List.mem_cons_self c cs2)) hv h1 h2
      rw [hstep]
      have hv2 : VisOk fs (walkAux fs f2 c vis).2 :=
        (walk_visOk fs hgood f2).1 c vis (hcs c (List.mem_cons_self c cs2)) hv
      have hsuf := walkAux_suffix fs f2 c vis
      rw [ihc (walkAux fs f2 c vis).2 (fun x hx => hcs x (List.mem_cons_of_mem c hx)) hv2
        (fuelOk_mono fs _ vis _ hsuf h1) (fuelOk_mono fs _ vis _ hsuf h2)]

theorem walkChildren_mem (fs : FS) (hgood : FS.Good fs) (fuel : Nat) (cs : List Nat) :
    ∀ vis, (∀ c ∈ cs, c < fs.nDirs) → VisOk fs vis → FuelOk fs fuel vis →
      ∀ c ∈ cs, c ∈ (walkChildren fs fuel cs vis).2 := by
  induction cs with
  | nil =>
    intro vis _ _ _ c hc
    cases hc
  | cons c0 cs2 ihc =>
    intro vis hcs hv hf c hc
    rw [walkChildren_cons]
    rcases List.mem_cons.mp hc with he | he
    · subst he
      have hm := walkAux_self_mem fs fuel c vis (fuelOk_pos fs fuel vis hv hf)
      exact (walkChildren_suffix fs fuel cs2 (walkAux fs fuel c vis).2).subset hm
    · have hv2 : VisOk fs (walkAux fs fuel c0 vis).2 :=
        (walk_visOk fs hgood fuel).1 c0 vis (hcs c0 (List.mem_cons_self c0 cs2)) hv
      have hsuf := walkAux_suffix fs fuel c0 vis
      exact ihc (walkAux fs fuel c0 vis).2 (fun x hx => hcs x (List.mem_cons_of_mem c0 hx))
        hv2 (fuelOk_mono fs fuel vis _ hsuf hf) c he

theorem walk_closure (fs : FS) (hgood : FS.Good fs) :
    ∀ fuel, (∀ d vis, d < fs.nDirs → VisOk fs vis → FuelOk fs fuel vis →
        ∀ y, y ∈ (walkAux fs fuel d vis).2 → y ∉ vis →
          ∀ c ∈ fs.entries y, c ∈ (walkAux fs fuel d vis).2) ∧
      (∀ cs vis, (∀ c ∈ cs, c < fs.nDirs) → VisOk fs vis → FuelOk fs fuel vis →
        ∀ y, y ∈ (walkChildren fs fuel cs vis).2 → y ∉ vis →
          ∀ c ∈ fs.entries y, c ∈ (walkChildren fs fuel cs vis).2) := by
  intro fuel
  induction fuel using Nat.strong_induction_on with
  | _ fuel ih =>
    have hA : ∀ d vis, d < fs.nDirs → VisOk fs vis → FuelOk fs fuel vis →
        ∀ y, y ∈ (walkAux fs fuel d vis).2 → y ∉ vis →
          ∀ c ∈ fs.entries y, c ∈ (walkAux fs fuel d vis).2 := by
      intro d vis hd hv hf y hy hyv c hc
      obtain ⟨g, rfl⟩ : ∃ g, fuel = g + 1 :=
        ⟨fuel - 1, by have := fuelOk_pos fs fuel vis hv hf; omega⟩
      by_cases hdm : d ∈ vis
      · rw [walkAux_succ_mem _ _ _ _ hdm] at hy ⊢
        exact absurd hy hyv
      · rw [walkAux_succ_not _ _ _ _ hdm] at hy ⊢
        have hv1 := visOk_cons fs d vis hv hd hdm
        have hcs : ∀ x ∈ (fs.entries d).filter (fun c => decide (c ∉ d :: vis)),
            x < fs.nDirs := fun x hx => hgood d x (List.mem_of_mem_filter hx)
        have hfu := fuelOk_step fs g d vis hf
        by_cases hyd : y = d
        · subst hyd
          by_cases hcv : c ∈ y :: vis
          · exact (walkChildren_suffix fs g _ (y :: vis)).subset hcv
          · have hcchild : c ∈ (fs.entries y).filter (fun x => decide (x ∉ y :: vis)) := by
              rw [List.mem_filter]
              exact ⟨hc, by simpa using hcv⟩
            exact walkChildren_mem fs hgood g _ (y :: vis) hcs hv1 hfu c hcchild
        · have hyv1 : y ∉ d :: vis := by
            intro hm
            rcases List.mem_cons.mp hm with he | he
            · exact hyd he
            · exact hyv he
          exact (ih g (by omega)).2 _ (d :: vis) hcs hv1 hfu y hy hyv1 c hc
    refine ⟨hA, ?_⟩
    intro cs
    induction cs with
    | nil =>
      intro vis _ _ _ y hy hyv c hc
      rw [walkChildren_nil] at hy
      exact absurd hy hyv
    | cons c0 cs2 ihc =>
      intro vis hcs hv hf y hy hyv c hc
      rw [walkChildren_cons] at hy ⊢
      have hv2 : VisOk fs (walkAux fs fuel c0 vis).2 :=
        (walk_visOk fs hgood fuel).1 c0 vis (hcs c0 (List.mem_cons_self c0 cs2)) hv
      have hsuf := walkAux_suffix fs fuel c0 vis
      have hf2 := fuelOk_mono fs fuel vis _ hsuf hf
      by_cases hyr : y ∈ (walkAux fs fuel c0 vis).2
      · have hcl := hA c0 vis (hcs c0 (List.mem_cons_self c0 cs2)) hv hf y hyr hyv c hc
        exact (walkChildren_suffix fs fuel cs2 (walkAux fs fuel c0 vis).2).subset hcl
      · exact ihc _ (fun x hx => hcs x (List.mem_cons_of_mem c0 hx)) hv2 hf2 y hy hyr c hc

theorem reachAvoid_not_mem (fs : FS) (vis : List Nat) (d x : Nat)
    (h : ReachAvoid fs vis d x) : x ∉ vis := by
  cases h with
  | refl h2 => exact h2
  | step _ _ hv => exact hv

theorem reachAvoid_mono (fs : FS) (vis vis2 : List Nat) (d x : Nat) (hsub : vis ⊆ vis2)
    (h : ReachAvoid fs vis2 d x) : ReachAvoid fs vis d x := by
  induction h with
  | refl h2 => exact ReachAvoid.refl (fun hm => h2 (hsub hm))
  | step _ hy hv ih => exact ReachAvoid.step ih hy (fun hm => hv (hsub hm))

theorem reachAvoid_trans (fs : FS) (vis : List Nat) (d c x : Nat)
    (h1 : ReachAvoid fs vis d c) (h2 : ReachAvoid fs vis c x) : ReachAvoid fs vis d x := by
  induction h2 with
  | refl _ => exact h1
  | step _ hy hv ih => exact ReachAvoid.step ih hy hv

theorem reach_of_reachAvoid (fs : FS) (vis : List Nat) (d x : Nat)
    (h : ReachAvoid fs vis d x) : Reach fs d x := by
  induction h with
  | refl _ => exact Reach.refl
  | step _ hy _ ih => exact Reach.step ih hy

theorem reachAvoid_nil_of_reach (fs : FS) (d x : Nat) (h : Reach fs d x) :
    ReachAvoid fs [] d x := by
  induction h with
  | refl => exact ReachAvoid.refl (by simp)
  | step _ hy ih => exact ReachAvoid.step ih hy (by simp)

theorem walk_sound (fs : FS) :
    ∀ fuel, (∀ d vis, ∀ x ∈ (walkAux fs fuel d vis).2, x ∈ vis ∨ ReachAvoid fs vis d x) ∧
      (∀ cs vis, ∀ x ∈ (walkChildren fs fuel cs vis).2,
        x ∈ vis ∨ ∃ c ∈ cs, ReachAvoid fs vis c x) := by
  intro fuel
  induction fuel using Nat.strong_induction_on with
  | _ fuel ih =>
    have hA : ∀ d vis, ∀ x ∈ (walkAux fs fuel d vis).2,
        x ∈ vis ∨ ReachAvoid fs vis d x := by
      intro d vis x hx
      cases fuel with
      | zero =>
        rw [walkAux_zero] at hx
        exact Or.inl hx
      | succ g =>
        by_cases hdm : d ∈ vis
        · rw [walkAux_succ_mem _ _ _ _ hdm] at hx
          exact Or.inl hx
        · rw [walkAux_succ_not _ _ _ _ hdm] at hx
          rcases (ih g (by omega)).2 _ (d :: vis) x hx with hm | ⟨c, hcmem, hra⟩
          · rcases List.mem_cons.mp hm with he | he
            · exact Or.inr (by rw [he]; exact ReachAvoid.refl hdm)
            · exact Or.inl he
          · have hcf := List.mem_filter.mp hcmem
            have hcent : c ∈ fs.entries d := hcf.1
            have hcnv : c ∉ d :: vis := by simpa using hcf.2
            have hra2 : ReachAvoid fs vis c x :=
              reachAvoid_mono fs vis (d :: vis) c x (List.subset_cons_self d vis) hra
            have hrad : ReachAvoid fs vis d c :=
              ReachAvoid.step (ReachAvoid.refl hdm) hcent
                (fun hm2 => hcnv (List.mem_cons_of_mem d hm2))
            exact Or.inr (reachAvoid_trans fs vis d c x hrad hra2)
    refine ⟨hA, ?_⟩
    intro cs
    induction cs with
    | nil =>
      intro vis x hx
      rw [walkChildren_nil] at hx
      exact Or.inl hx
    | cons c0 cs2 ihc =>
      intro vis x hx
      rw [walkChildren_cons] at hx
      rcases ihc (walkAux fs fuel c0 vis).2 x hx with hm | ⟨c, hcm, hra⟩
      · rcases hA c0 vis x hm with hm2 | hra2
        · exact Or.inl hm2
        · exact Or.inr ⟨c0, List.mem_cons_self c0 cs2, hra2⟩
      · have hsub : vis ⊆ (walkAux fs fuel c0 vis).2 := (walkAux_suffix fs fuel c0 vis).subset
        exact Or.inr ⟨c, List.mem_cons_of_mem c0 hcm,
          reachAvoid_mono fs vis _ c x hsub hra⟩

theorem walk_complete (fs : FS) (hgood : FS.Good fs) (fuel d : Nat) (vis : List Nat)
    (hd : d < fs.nDirs) (hv : VisOk fs vis) (hf : FuelOk fs fuel vis) :
    ∀ x, ReachAvoid fs vis d x → x ∈ (walkAux fs fuel d vis).2 := by
  intro x hra
  induction hra with
  | refl _ => exact walkAux_self_mem fs fuel d vis (fuelOk_pos fs fuel vis hv hf)
  | step hx hy _ ih =>
    exact (walk_closure fs hgood fuel).1 d vis hd hv hf _ ih
      (reachAvoid_not_mem fs vis d _ hx) _ hy

theorem walk_out (fs : FS) :
    ∀ fuel, (∀ d vis (x : Nat) (fl : String), (x, fl) ∈ (walkAux fs fuel d vis).1 ↔
        (x ∈ (walkAux fs fuel d vis).2 ∧ x ∉ vis ∧ fl ∈ fs.files x)) ∧
      (∀ cs vis (x : Nat) (fl : String), (x, fl) ∈ (walkChildren fs fuel cs vis).1 ↔
        (x ∈ (walkChildren fs fuel cs vis).2 ∧ x ∉ vis ∧ fl ∈ fs.files x)) := by
  intro fuel
  induction fuel using Nat.strong_induction_on with
  | _ fuel ih =>
    have hA : ∀ d vis (x : Nat) (fl : String), (x, fl) ∈ (walkAux fs fuel d vis).1 ↔
        (x ∈ (walkAux fs fuel d vis).2 ∧ x ∉ vis ∧ fl ∈ fs.files x) := by
      intro d vis x fl
      cases fuel with
      | zero =>
        rw [walkAux_zero]
        constructor
        · intro hm
          cases hm
        · rintro ⟨h1, h2, _⟩
          exact absurd h1 h2
      | succ g =>
        by_cases hdm : d ∈ vis
        · rw [walkAux_succ_mem _ _ _ _ hdm]
          constructor
          · intro hm
            cases hm
          · rintro ⟨h1, h2, _⟩
            exact absurd h1 h2
        · rw [walkAux_succ_not _ _ _ _ hdm]
          constructor
          · intro hm
            rcases List.mem_append.mp hm with h1 | h1
            · rcases List.mem_map.mp h1 with ⟨f0, hf0, heq⟩
              injection heq with he1 he2
              subst he1
              subst he2
              refine ⟨?_, hdm, hf0⟩
              exact (walkChildren_suffix fs g _ (d :: vis)).subset (List.mem_cons_self d vis)
            · have h2 := ((ih g (by omega)).2 _ (d :: vis) x fl).mp h1
              exact ⟨h2.1, fun hm2 => h2.2.1 (List.mem_cons_of_mem d hm2), h2.2.2⟩
          · rintro ⟨h1, h2, h3⟩
            by_cases hxd : x = d
            · subst hxd
              exact List.mem_append.mpr (Or.inl (List.mem_map.mpr ⟨fl, h3, rfl⟩))
            · have hxv1 : x ∉ d :: vis := by
                intro hm2
                rcases List.mem_cons.mp hm2 with he | he
                · exact hxd he
                · exact h2 he
              exact List.mem_append.mpr
                (Or.inr (((ih g (by omega)).2 _ (d :: vis) x fl).mpr ⟨h1, hxv1, h3⟩))
    refine ⟨hA, ?_⟩
    intro cs
    induction cs with
    | nil =>
      intro vis x fl
      rw [walkChildren_nil]
      constructor
      · intro hm
        cases hm
      · rintro ⟨h1, h2, _⟩
        exact absurd h1 h2
    | cons c0 cs2 ihc =>
      intro vis x fl
      rw [walkChildren_cons]
      have hsuf1 := walkAux_suffix fs fuel c0 vis
      have hsuf2 := walkChildren_suffix fs fuel cs2 (walkAux fs fuel c0 vis).2
      constructor
      · intro hm
        rcases List.mem_append.mp hm with h1 | h1
        · have h2 := (hA c0 vis x fl).mp h1
          exact ⟨hsuf2.subset h2.1, h2.2.1, h2.2.2⟩
        · have h2 := (ihc (walkAux fs fuel c0 vis).2 x fl).mp h1
          exact ⟨h2.1, fun hm2 => h2.2.1 (hsuf1.subset hm2), h2.2.2⟩
      · rintro ⟨h1, h2, h3⟩
        by_cases hxr : x ∈ (walkAux fs fuel c0 vis).2
        · exact List.mem_append.mpr (Or.inl ((hA c0 vis x fl).mpr ⟨hxr, h2, h3⟩))
        · exact List.mem_append.mpr
            (Or.inr ((ihc (walkAux fs fuel c0 vis).2 x fl).mpr ⟨h1, hxr, h3⟩))

theorem walk_nodup (fs : FS) (hfiles : ∀ d, (fs.files d).Nodup) :
    ∀ fuel, (∀ d vis, ((walkAux fs fuel d vis).1).Nodup) ∧
      (∀ cs vis, ((walkChildren fs fuel cs vis).1).Nodup) := by
  intro fuel
  induction fuel using Nat.strong_induction_on with
  | _ fuel ih =>
    have hA : ∀ d vis, ((walkAux fs fuel d vis).1).Nodup := by
      intro d vis
      cases fuel with
      | zero =>
        rw [walkAux_zero]
        exact List.nodup_nil
      | succ g =>
        by_cases hdm : d ∈ vis
        · rw [walkAux_succ_mem _ _ _ _ hdm]
          exact List.nodup_nil
        · rw [walkAux_succ_not _ _ _ _ hdm]
          refine List.Nodup.append ?_ ((ih g (by omega)).2 _ (d :: vis)) ?_
          · refine List.Nodup.map ?_ (hfiles d)
            intro a b hab
            injection hab
          · intro p hp hp2
            rcases List.mem_map.mp hp with ⟨f0, _, heq⟩
            obtain ⟨x, fl⟩ := p
            injection heq with he1 he2
            subst he1
            have h2 := ((walk_out fs g).2 _ (d :: vis) d fl).mp hp2
            exact h2.2.1 (List.mem_cons_self d vis)
    refine ⟨hA, ?_⟩
    intro cs
    induction cs with
    | nil =>
      intro vis
      rw [walkChildren_nil]
      exact List.nodup_nil
    | cons c0 cs2 ihc =>
      intro vis
      rw [walkChildren_cons]
      refine List.Nodup.append (hA c0 vis) (ihc (walkAux fs fuel c0 vis).2) ?_
      intro p hp hp2
      obtain ⟨x, fl⟩ := p
      have h1 := ((walk_out fs fuel).1 c0 vis x fl).mp hp
      have h2 := ((walk_out fs fuel).2 cs2 (walkAux fs fuel c0 vis).2 x fl).mp hp2
      exact h2.2.1 h1.1

/-! C9 -/

/-- C9: over every finite filesystem graph of real directories,
including graphs with symlink cycles and directories reachable by more
than one path, the walk of `files_in_project` terminates (its result is
unchanged by any extra fuel beyond the directory count), and it yields
each real file of each reachable real directory exactly once: the
output has no duplicates and contains exactly the pairs of a reachable
directory and one of its files.  A directory whose real path is already
visited is pruned from descent by construction of the walk. -/
theorem c9_walk_terminates_and_yields_each_file_once (fs : FS) (root : Nat)
    (hgood : FS.Good fs) (hroot : root < fs.nDirs) (hfiles : ∀ d, (fs.files d).Nodup) :
    (∀ extra, walkAux fs (fs.nDirs + 1 + extra) root [] =
      walkAux fs (fs.nDirs + 1) root []) ∧
    (files_in_project fs root).Nodup ∧
    (∀ d fl, (d, fl) ∈ files_in_project fs root ↔ Reach fs root d ∧ fl ∈ fs.files d) := by
  have hvnil : VisOk fs [] := ⟨List.nodup_nil, by simp⟩
  have hfn : ∀ k, FuelOk fs (fs.nDirs + 1 + k) [] := by
    intro k
    unfold FuelOk
    simp
  refine ⟨?_, ?_, ?_⟩
  · intro extra
    exact (walk_fuel_stable fs hgood (fs.nDirs + 1 + extra)).1 (fs.nDirs + 1) root []
      hroot hvnil (hfn extra) (hfn 0)
  · exact (walk_nodup fs hfiles (fs.nDirs + 1)).1 root []
  · intro d fl
    unfold files_in_project
    rw [(walk_out fs (fs.nDirs + 1)).1 root [] d fl]
    constructor
    · rintro ⟨h1, _, h3⟩
      refine ⟨?_, h3⟩
      rcases (walk_sound fs (fs.nDirs + 1)).1 root [] d h1 with hm | hra
      · cases hm
      · exact reach_of_reachAvoid fs [] root d hra
    · rintro ⟨h1, h3⟩
      refine ⟨?_, by simp, h3⟩
      exact walk_complete fs hgood (fs.nDirs + 1) root [] hroot hvnil (hfn 0) d
        (reachAvoid_nil_of_reach fs root d h1)

/-- Witness for C9: a two-directory filesystem whose directories link
to each other, a symlink cycle. -/
theorem c9_walk_terminates_and_yields_each_file_once_witness :
    (∀ extra, walkAux CYCLE_FS (CYCLE_FS.nDirs + 1 + extra) 0 [] =
      walkAux CYCLE_FS (CYCLE_FS.nDirs + 1) 0 []) ∧
    (files_in_project CYCLE_FS 0).Nodup ∧
    (∀ d fl, (d, fl) ∈ files_in_project CYCLE_FS 0 ↔
      Reach CYCLE_FS 0 d ∧ fl ∈ CYCLE_FS.files d) :=
  c9_walk_terminates_and_yields_each_file_once CYCLE_FS 0
    (by
      intro d c hc
      simp only [CYCLE_FS] at hc
      by_cases h0 : d = 0
      · rw [if_pos h0] at hc
        simp only [List.mem_singleton] at hc
        subst hc
        decide
      · rw [if_neg h0] at hc
        by_cases h1 : d = 1
        · rw [if_pos h1] at hc
          simp only [List.mem_singleton] at hc
          subst hc
          decide
        · rw [if_neg h1] at hc
          cases hc)
    (by decide)
    (by
      intro d
      simp only [CYCLE_FS]
      by_cases h0 : d = 0
      · rw [if_pos h0]
        simp
      · rw [if_neg h0]
        by_cases h1 : d = 1
        · rw [if_pos h1]
          simp
        · rw [if_neg h1]
          simp)

end Qordoba
